import Mathlib

/-!
Verification development for the go-ip-country-resolver repository.

The Go sources are shallowly embedded: machine `uint32` values are `Nat`
with explicit bounds, `[]byte` values are `List Nat` whose elements are
below 256, Go maps and bbolt buckets are association lists, and fallible
operations return `Option` / an explicit result type.  Each definition is
translated from the corresponding Go function (named in its doc comment).
-/

namespace IpCountry

/-! ## Range codec (src/utils.go) -/
/-- `IPRange` struct from utils.go: a numeric range with its country code. -/
structure IPRange where
  Start : Nat
  End : Nat
  Country : String
deriving Repr, DecidableEq

/-- `EncodeUint32` (utils.go): big-endian 4-byte encoding of a `uint32`.
Each `byte(v >> k)` cast is the low 8 bits of the shifted value. -/
def encodeUint32BE (v : Nat) : List Nat :=
  [(v >>> 24) % 256, (v >>> 16) % 256, (v >>> 8) % 256, v % 256]

/-- `DecodeUint32` (utils.go): decode the first four bytes, big-endian.
The Go code indexes `b[0] … b[3]`; every call site guards the length,
so the default branch is unreachable there. -/
def decodeUint32BE (b : List Nat) : Nat :=
  match b with
  | b0 :: b1 :: b2 :: b3 :: _ => (b0 <<< 24) ||| (b1 <<< 16) ||| (b2 <<< 8) ||| b3
  | _ => 0

/-- `IPToUint32` (utils.go) on a parsed 4-octet address:
`uint32(ip[0])<<24 | uint32(ip[1])<<16 | uint32(ip[2])<<8 | uint32(ip[3])`. -/
def ipv4ToUint32 (a b c d : Nat) : Nat :=
  (a <<< 24) ||| (b <<< 16) ||| (c <<< 8) ||| d

/-! ## Byte-string order (bbolt iterates keys in ascending byte order;
`bytes.Compare` semantics) -/
/-- Lexicographic three-way comparison of byte strings, as `bytes.Compare`:
element-wise, with a strict prefix ordered first. -/
def bytesCompare : List Nat → List Nat → Ordering
  | [], [] => .eq
  | [], _ :: _ => .lt
  | _ :: _, [] => .gt
  | a :: as, b :: bs =>
    if a < b then .lt else if b < a then .gt else bytesCompare as bs

/-- Non-strict byte-lexicographic order. -/
def lexLE (a b : List Nat) : Bool := bytesCompare a b ≠ Ordering.gt

/-! ## Numeric-index scan (src/search.go, `lookupCountryByIPNumeric`) -/
/-- The `ip_ranges_numeric` bucket content as the cursor iterates it:
a list of raw byte keys with their stored country values. -/
abbrev NumericBucket := List (List Nat × String)

/-- `lookupCountryByIPNumeric` (search.go): scan the numeric bucket in
iteration order; decode `start`/`end` from each key of at least 8 bytes;
return the value on `start ≤ ipNum ≤ end`; stop early once `start > ipNum`. -/
def lookupCountryByIPNumeric (entries : NumericBucket) (ipNum : Nat) : Option String :=
  match entries with
  | [] => none
  | (k, v) :: rest =>
    if 8 ≤ k.length then
      let start := decodeUint32BE k
      let stop := decodeUint32BE (k.drop 4)
      if ipNum ≥ start ∧ ipNum ≤ stop then some v
      else if start > ipNum then none
      else lookupCountryByIPNumeric rest ipNum
    else lookupCountryByIPNumeric rest ipNum

/-- A stored numeric entry containing the target address. -/
def entryContains (e : List Nat × String) (ipNum : Nat) : Prop :=
  8 ≤ e.1.length ∧ decodeUint32BE e.1 ≤ ipNum ∧ ipNum ≤ decodeUint32BE (e.1.drop 4)

/-! ## String utilities (Go standard library behaviour used by the codec) -/
/-- `strings.Split` with a one-character separator. -/
def splitOnChar (sep : Char) : List Char → List (List Char)
  | [] => [[]]
  | c :: rest =>
    match splitOnChar sep rest with
    | [] => [[]]
    | grp :: gs => if c = sep then [] :: grp :: gs else (c :: grp) :: gs

/-- `strings.Contains` with a one-character needle. -/
def containsChar (s : List Char) (c : Char) : Bool := s.any (fun x => x == c)

/-- ASCII fragment of `unicode.IsSpace` (the zone files are ASCII). -/
def isSpaceChar (c : Char) : Bool :=
  c == ' ' || c == '\t' || c == '\n' || c == '\r' || c == '\x0b' || c == '\x0c'

/-- `strings.TrimSpace` on ASCII text. -/
def trimSpace (s : List Char) : List Char :=
  ((s.dropWhile isSpaceChar).reverse.dropWhile isSpaceChar).reverse

/-- `strings.HasPrefix`. -/
def startsWith : List Char → List Char → Bool
  | _, [] => true
  | [], _ :: _ => false
  | c :: cs, p :: ps => c == p && startsWith cs ps

/-- `strings.HasSuffix`. -/
def endsWith (s t : List Char) : Bool := startsWith s.reverse t.reverse

/-- `strings.Contains` with an arbitrary needle. -/
def containsSubstring (s sub : List Char) : Bool :=
  match s with
  | [] => startsWith [] sub
  | _ :: rest => startsWith s sub || containsSubstring rest sub

/-- `strings.Index` with a one-character needle (`none` encodes Go's `-1`). -/
def indexOfChar : List Char → Char → Option Nat
  | [], _ => none
  | c :: rest, t => if c = t then some 0 else (indexOfChar rest t).map (· + 1)

/-- `filepath.Base` (Unix separators): empty path gives `"."`, an
all-separator path gives `"/"`, otherwise the last element with any
trailing separators removed. -/
def filepathBase (s : List Char) : List Char :=
  if s = [] then ['.']
  else
    let t := (s.reverse.dropWhile (· = '/')).reverse
    if t = [] then ['/']
    else (t.reverse.takeWhile (· ≠ '/')).reverse

/-! ## IPv4 text parsing (`net.ParseIP` dotted-quad path, Go ≥ 1.17 rules).
IPv6 textual forms are outside the model: every claim in scope exercises
dotted-quad addresses only, and those never take the IPv6 path in Go. -/
/-- One decimal octet field: non-empty, all digits, no leading zero,
value at most 255. -/
def parseDecOctet (s : List Char) : Option Nat :=
  if s.isEmpty then none
  else if ¬ s.all Char.isDigit then none
  else if 1 < s.length ∧ s.head? = some '0' then none
  else
    let v := s.foldl (fun a c => a * 10 + (c.toNat - 48)) 0
    if v ≤ 255 then some v else none

/-- `net.ParseIP(s).To4()` for dotted-quad text: exactly four octet
fields separated by `'.'`; yields the four octets. -/
def parseIPv4CL (s : List Char) : Option (List Nat) :=
  match (splitOnChar '.' s).map parseDecOctet with
  | [some a, some b, some c, some d] => some [a, b, c, d]
  | _ => none

/-- String-level wrapper for `net.ParseIP(s).To4()`. -/
def parseIPv4 (s : String) : Option (List Nat) := parseIPv4CL s.data

/-- Helper: `IPToUint32` applied to a parsed octet list (Go indexes the
four bytes of the `net.IP` value). -/
def ipListToUint32 (ip : List Nat) : Nat :=
  match ip with
  | a :: b :: c :: d :: _ => ipv4ToUint32 a b c d
  | _ => 0

/-- The prefix length part of a CIDR (`dtoi` in Go's net package, plus the
`0 ≤ n ≤ 32` bound checked by `ParseCIDR` for IPv4): non-empty, all
digits, value at most 32. -/
def parseMaskLen (s : List Char) : Option Nat :=
  if s.isEmpty then none
  else if ¬ s.all Char.isDigit then none
  else
    let v := s.foldl (fun a c => a * 10 + (c.toNat - 48)) 0
    if v ≤ 32 then some v else none

/-- `net.ParseCIDR` for IPv4 text: split at the first `'/'`, parse the
address and the prefix length, and return the masked network address
(`ipNet.IP` as a u32) with the prefix length. -/
def parseCIDRv4 (s : String) : Option (Nat × Nat) :=
  match indexOfChar s.data '/' with
  | none => none
  | some i =>
    let addr := s.data.take i
    let mask := s.data.drop (i + 1)
    match parseIPv4CL addr, parseMaskLen mask with
    | some q, some n =>
      let hostBits := 32 - n
      some (((ipListToUint32 q) >>> hostBits) <<< hostBits, n)
    | _, _ => none

/-- `ParseIPRange` (utils.go): a CIDR gives `(network, network | lowMask)`;
otherwise a `"start-end"` pair gives the two converted addresses (each
side trimmed); anything else fails. -/
def parseIPRange (s : String) : Option (Nat × Nat) :=
  if containsChar s.data '/' then
    match parseCIDRv4 s with
    | none => none
    | some (start, n) =>
      let hostBits := 32 - n
      some (start, start ||| ((1 <<< hostBits) - 1))
  else
    match splitOnChar '-' s.data with
    | [p1, p2] =>
      match parseIPv4CL (trimSpace p1), parseIPv4CL (trimSpace p2) with
      | some a, some b => some (ipListToUint32 a, ipListToUint32 b)
      | _, _ => none
    | _ => none

/-- `IsIPInCIDR` (utils.go): membership of an address in a CIDR block via
`ipNet.Contains`; `false` on any parse failure. -/
def ipv4InCIDR (ip cidr : String) : Bool :=
  match parseCIDRv4 cidr with
  | none => false
  | some (net, n) =>
    match parseIPv4 ip with
    | none => false
    | some q =>
      let hostBits := 32 - n
      (((ipListToUint32 q) >>> hostBits) <<< hostBits) == net

/-- `IsIPInRange` (utils.go): dispatch on `'/'` to CIDR membership, else
parse a `"start-end"` pair (no trimming here, unlike `ParseIPRange`) and
compare numerically; `false` on any malformed input. -/
def ipv4InRange (ip rangeStr : String) : Bool :=
  if containsChar rangeStr.data '/' then ipv4InCIDR ip rangeStr
  else
    match splitOnChar '-' rangeStr.data with
    | [p1, p2] =>
      match parseIPv4 ip, parseIPv4CL p1, parseIPv4CL p2 with
      | some q, some sq, some tq =>
        decide (ipListToUint32 sq ≤ ipListToUint32 q ∧
          ipListToUint32 q ≤ ipListToUint32 tq)
      | _, _, _ => false
    | _ => false

/-- `ip.IsLoopback` on a four-octet address. -/
def isLoopback (ip : List Nat) : Bool :=
  match ip with
  | a :: _ => a == 127
  | _ => false

/-- `ip.IsPrivate` (RFC 1918) on a four-octet address. -/
def isPrivate (ip : List Nat) : Bool :=
  match ip with
  | a :: b :: _ => a == 10 || (a == 172 && b &&& 240 == 16) || (a == 192 && b == 168)
  | _ => false

/-- `ip.IsLinkLocalUnicast` on a four-octet address. -/
def isLinkLocalUnicast (ip : List Nat) : Bool :=
  match ip with
  | a :: b :: _ => a == 169 && b == 254
  | _ => false

/-- `ip.IsLinkLocalMulticast` on a four-octet address. -/
def isLinkLocalMulticast (ip : List Nat) : Bool :=
  match ip with
  | a :: b :: c :: _ => a == 224 && b == 0 && c == 0
  | _ => false

/-- `IsPrivateOrLocalRange` (utils.go): split on `'/'` into exactly two
parts, parse the address part, and classify; malformed input is `false`. -/
def isPrivateOrLocalCIDR (s : String) : Bool :=
  match splitOnChar '/' s.data with
  | [a, _] =>
    match parseIPv4CL a with
    | some ip => isLoopback ip || isPrivate ip || isLinkLocalUnicast ip || isLinkLocalMulticast ip
    | none => false
  | _ => false

/-! ## Store model (src/database.go).  A bbolt bucket is an association
list; the textual bucket and the Go `map` use key equality, the numeric
bucket uses byte keys and keeps its bbolt iteration order (ascending
`bytes.Compare`) by sorted insertion. -/
/-- Key-value maps with string keys (the `ip_ranges` bucket and Go maps):
lookup of the first (unique) binding. -/
def mapGet : List (String × String) → String → Option String
  | [], _ => none
  | (k', v') :: rest, k => if k = k' then some v' else mapGet rest k

/-- Insert-or-replace for string-keyed maps. -/
def mapPut : List (String × String) → String → String → List (String × String)
  | [], k, v => [(k, v)]
  | (k', v') :: rest, k, v =>
    if k = k' then (k, v) :: rest else (k', v') :: mapPut rest k v

/-- Lookup in the numeric bucket by byte key. -/
def bucketGet : NumericBucket → List Nat → Option String
  | [], _ => none
  | (k', v') :: rest, k =>
    if bytesCompare k k' = .eq then some v' else bucketGet rest k

/-- `bbolt` `Put` on the numeric bucket: insert in ascending byte order,
replacing an equal key. -/
def bucketPut : NumericBucket → List Nat → String → NumericBucket
  | [], k, v => [(k, v)]
  | (k', v') :: rest, k, v =>
    match bytesCompare k k' with
    | .lt => (k, v) :: (k', v') :: rest
    | .eq => (k, v) :: rest
    | .gt => (k', v') :: bucketPut rest k v

/-- The database state after `ensureBuckets`: the two populated buckets
(the reserved `ip_prefix_index` bucket stays empty and is not modelled). -/
structure LocalDB where
  ip_ranges : List (String × String)
  ip_ranges_numeric : NumericBucket
deriving Repr, DecidableEq

/-- `upsertIPRangeCountry` (database.go): unconditional `Put` of the
textual key and of the 8-byte `start|end` key; always succeeds. -/
def upsertIPRangeCountry (db : LocalDB) (ipRange : String) (start stop : Nat)
    (countryCode : String) : LocalDB :=
  { ip_ranges := mapPut db.ip_ranges ipRange countryCode,
    ip_ranges_numeric :=
      bucketPut db.ip_ranges_numeric
        (encodeUint32BE start ++ encodeUint32BE stop) countryCode }

/-! ## Cache and resolution engine (src/search.go) -/
/-- `IPCache` (search.go): bounded map, reset when full.  `maxSize` is a
Go `int`; only non-negative sizes are exercised anywhere. -/
structure IPCache where
  cache : List (String × String)
  maxSize : Nat
  currentSize : Nat
deriving Repr, DecidableEq

/-- `newIPCache` (search.go). -/
def newIPCache (maxSize : Nat) : IPCache :=
  { cache := [], maxSize := maxSize, currentSize := 0 }

/-- `getCountry` (search.go): cache read. -/
def getCountry (c : IPCache) (ip : String) : Option String := mapGet c.cache ip

/-- `putCountry` (search.go): clear the whole cache when the insert
counter has reached `maxSize`, then insert and count. -/
def putCountry (c : IPCache) (ip country : String) : IPCache :=
  let c' := if c.currentSize ≥ c.maxSize
    then { c with cache := [], currentSize := 0 } else c
  { c' with cache := mapPut c'.cache ip country,
            currentSize := c'.currentSize + 1 }

/-- Resolution errors of `lookupCountryByIP`. -/
inductive LookupErr where
  | invalidAddress
  | notFound
deriving Repr, DecidableEq

/-- `lookupCountryByIP` (search.go): cache, then numeric scan, then full
textual fallback; successful resolutions are written back to the cache
keyed by the original query string. -/
def lookupCountryByIP (db : LocalDB) (c : IPCache) (ip : String) :
    Except LookupErr String × IPCache :=
  match getCountry c ip with
  | some country => (.ok country, c)
  | none =>
    match parseIPv4 ip with
    | none => (.error .invalidAddress, c)
    | some q =>
      let ipNum := ipListToUint32 q
      match lookupCountryByIPNumeric db.ip_ranges_numeric ipNum with
      | some country => (.ok country, putCountry c ip country)
      | none =>
        match db.ip_ranges.find? (fun kv => ipv4InRange ip kv.1) with
        | some kv => (.ok kv.2, putCountry c ip kv.2)
        | none => (.error .notFound, c)

/-! ## Cache bound (C10) -/
/-- One cache operation issued by a client. -/
inductive CacheOp where
  | putOp (ip country : String)
  | getOp (ip : String)

/-- Effect of one operation on the cache state (`getCountry` reads only). -/
def applyCacheOp (c : IPCache) : CacheOp → IPCache
  | .putOp ip country => putCountry c ip country
  | .getOp _ => c

/-- Effect of a finite operation sequence. -/
def applyCacheOps (c : IPCache) (ops : List CacheOp) : IPCache :=
  ops.foldl applyCacheOp c

/-! ## Batched ingestion (src/database.go).  A zone file is modelled as
its list of lines; the Go `map[string]string` batch is an association
list with unique keys (`mapPut` collapses duplicates exactly as a map
assignment does). -/
/-- Body of the textual loop of `writeBatch`: read the existing value
(`string(nil)` is `""`), write and count only when it differs. -/
def writeBatchTextStep (acc : List (String × String) × Nat) (kv : String × String) :
    List (String × String) × Nat :=
  let existingCountry := (mapGet acc.1 kv.1).getD ""
  if existingCountry ≠ kv.2 then (mapPut acc.1 kv.1 kv.2, acc.2 + 1) else acc

/-- The 8-byte numeric key of an `IPRange`. -/
def rangeKey (r : IPRange) : List Nat :=
  encodeUint32BE r.Start ++ encodeUint32BE r.End

/-- Body of the numeric loop of `writeBatch`: write when absent or
different; this write is never counted. -/
def writeBatchNumericStep (nbz : NumericBucket) (r : IPRange) : NumericBucket :=
  match bucketGet nbz (rangeKey r) with
  | none => bucketPut nbz (rangeKey r) r.Country
  | some existing =>
    if existing ≠ r.Country then bucketPut nbz (rangeKey r) r.Country else nbz

/-- `writeBatch` (database.go): diff-before-write commit of one batch to
both buckets.  The returned count covers only textual-index writes. -/
def writeBatch (db : LocalDB) (batch : List (String × String))
    (numericBatch : List IPRange) : LocalDB × Nat :=
  let tp := batch.foldl writeBatchTextStep (db.ip_ranges, 0)
  let nb := numericBatch.foldl writeBatchNumericStep db.ip_ranges_numeric
  (⟨tp.1, nb⟩, tp.2)

/-- Loop state of `importZoneFile`. -/
structure ImportState where
  db : LocalDB
  batch : List (String × String)
  numericBatch : List IPRange
  processed : Nat
  updated : Nat
  skipped : Nat

/-- Commit the pending batch (`writeBatch` call sites in
`importZoneFile`): accumulate the count and reset the batches. -/
def flushBatch (st : ImportState) : ImportState :=
  let r := writeBatch st.db st.batch st.numericBatch
  { st with db := r.1, updated := st.updated + r.2, batch := [], numericBatch := [] }

/-- One iteration of the scanner loop of `importZoneFile`: trim, skip
blank/comment lines, skip private ranges, count the line as processed,
parse it (silently skipping parse failures), extend both batches, and
flush once the textual batch reaches the batch size (1000). -/
def importLine (countryCode : String) (st : ImportState) (rawLine : String) :
    ImportState :=
  let ipRange : String := ⟨trimSpace rawLine.data⟩
  if ipRange = "" || startsWith ipRange.data "#".data ||
      startsWith ipRange.data "//".data then st
  else if isPrivateOrLocalCIDR ipRange then { st with skipped := st.skipped + 1 }
  else
    let st1 := { st with processed := st.processed + 1 }
    match parseIPRange ipRange with
    | none => { st1 with skipped := st1.skipped + 1 }
    | some (s, e) =>
      let st2 := { st1 with
        batch := mapPut st1.batch ipRange countryCode,
        numericBatch := st1.numericBatch ++ [⟨s, e, countryCode⟩] }
      if 1000 ≤ st2.batch.length then flushBatch st2 else st2

/-- Outcome of a Go call that can also panic at runtime. -/
inductive GoResult (α : Type) where
  | panicked
  | failed (msg : String)
  | ok (val : α)
deriving Repr, DecidableEq

/-- Country-code derivation of `importZoneFile` (database.go):
`filepath.Base`, then the slice `[:strings.Index(base, ".")]` — which
panics when there is no `'.'` because the index is `-1` — then the
empty-code check. -/
def deriveCountryCode (file : String) : GoResult String :=
  let base := filepathBase file.data
  match indexOfChar base '.' with
  | none => .panicked
  | some i =>
    let countryCode : String := ⟨base.take i⟩
    if countryCode = "" then .failed "empty country code" else .ok countryCode

/-- `importZoneFile` (database.go) on the file's lines: derive the code,
run the scanner loop, and commit any remaining batch.  Returns
`(processed, updated)`. -/
def importZoneFile (db : LocalDB) (file : String) (lines : List String) :
    GoResult (LocalDB × Nat × Nat) :=
  match deriveCountryCode file with
  | .panicked => .panicked
  | .failed m => .failed m
  | .ok countryCode =>
    let st := lines.foldl (importLine countryCode)
      ⟨db, [], [], 0, 0, 0⟩
    let st := if st.batch.length > 0 then flushBatch st else st
    .ok (st.db, st.processed, st.updated)

/-- Loop of `importZoneDirectory` (database.go) over the globbed files:
skip any path containing the substring `"zz.zone"`; a failed per-file
attempt is logged and skipped; a panic propagates. -/
def importZoneDirectoryGo (db : LocalDB) (tp tu : Nat) :
    List (String × List String) → GoResult (LocalDB × Nat × Nat)
  | [] => .ok (db, tp, tu)
  | (name, lines) :: rest =>
    if ¬ containsSubstring name.data "zz.zone".data then
      match importZoneFile db name lines with
      | .panicked => .panicked
      | .failed _ => importZoneDirectoryGo db tp tu rest
      | .ok (db', p, u) => importZoneDirectoryGo db' (tp + p) (tu + u) rest
    else importZoneDirectoryGo db tp tu rest

/-- `importZoneDirectory` (database.go), starting at the files produced
by `filepath.Glob(dir/*.zone)`. -/
def importZoneDirectory (db : LocalDB) (files : List (String × List String)) :
    GoResult (LocalDB × Nat × Nat) :=
  importZoneDirectoryGo db 0 0 files

/-- Loop of `verifyRangeIndexes` (database.go): `count` counts every key
of length at least 4; `warnings` counts the positions where the decoded
`start` drops below the previous one.  Go returns `count` and only
prints `warnings`; the model returns both. -/
def verifyRangeIndexesGo (count warnings lastStart : Nat) :
    List (List Nat) → Nat × Nat
  | [] => (count, warnings)
  | k :: rest =>
    if 4 ≤ k.length then
      let start := decodeUint32BE k
      let warnings' := if 0 < count ∧ start < lastStart then warnings + 1 else warnings
      verifyRangeIndexesGo (count + 1) warnings' start rest
    else verifyRangeIndexesGo count warnings lastStart rest

/-- `verifyRangeIndexes` over the numeric bucket's keys in iteration
order. -/
def verifyRangeIndexes (ks : List (List Nat)) : Nat × Nat :=
  verifyRangeIndexesGo 0 0 0 ks

/-! ## C8: what `verifyRangeIndexes` counts -/
/-- Number of adjacent descents in a list (positions whose value drops
below its predecessor) — the property C8 says the audit returns. -/
def descents : List Nat → Nat
  | a :: b :: rest => (if b < a then 1 else 0) + descents (b :: rest)
  | _ => 0

/-- Decoded `start` fields of the keys the audit looks at (length ≥ 4),
in iteration order. -/
def decodedStarts (ks : List (List Nat)) : List Nat :=
  (ks.filter (fun k => 4 ≤ k.length)).map decodeUint32BE

/-- The trimmed form of a line, as `importZoneFile` keys the batch. -/
def lineKey (rawLine : String) : String := ⟨trimSpace rawLine.data⟩

/-- The numeric bounds of a line that survives all of `importZoneFile`'s
filters (blank/comment, private, parse failure), `none` otherwise. -/
def keptRange (rawLine : String) : Option (Nat × Nat) :=
  let ipRange := lineKey rawLine
  if ipRange = "" || startsWith ipRange.data "#".data ||
      startsWith ipRange.data "//".data then none
  else if isPrivateOrLocalCIDR ipRange then none
  else parseIPRange ipRange

/-- Contribution of one line to the `processed` counter (parse failures
are counted; blank/comment/private lines are not). -/
def procDelta (rawLine : String) : Nat :=
  let ipRange := lineKey rawLine
  if ipRange = "" || startsWith ipRange.data "#".data ||
      startsWith ipRange.data "//".data then 0
  else if isPrivateOrLocalCIDR ipRange then 0
  else 1

/-- A line's data is accounted for in the state: its trimmed key maps to
the country either in the committed bucket or in the pending batch, and
similarly for its numeric key. -/
def lineSettled (cc : String) (st : ImportState) (t : String) (s e : Nat) : Prop :=
  (mapGet st.db.ip_ranges t = some cc ∨ mapGet st.batch t = some cc) ∧
  (bucketGet st.db.ip_ranges_numeric (encodeUint32BE s ++ encodeUint32BE e) = some cc ∨
    IPRange.mk s e cc ∈ st.numericBatch)

/-- Both pending batches carry only the file's country, and they empty
together. -/
def batchInv (cc : String) (st : ImportState) : Prop :=
  (∀ kv ∈ st.batch, kv.2 = cc) ∧ (∀ r ∈ st.numericBatch, r.Country = cc) ∧
  (st.batch = [] → st.numericBatch = [])

/-- Re-import invariant: the database stays `db₁`, nothing is counted,
and the pending batches only hold data already stored in `db₁`. -/
def run2Inv (cc : String) (db₁ : LocalDB) (st : ImportState) : Prop :=
  st.db = db₁ ∧ st.updated = 0 ∧
  (∀ kv ∈ st.batch, kv.2 = cc ∧ mapGet db₁.ip_ranges kv.1 = some cc) ∧
  (∀ r ∈ st.numericBatch, r.Country = cc ∧
    bucketGet db₁.ip_ranges_numeric (rangeKey r) = some cc)

/-- Disjoint bitwise or is addition: if `a` is a multiple of `2^n` and
`b < 2^n`, the two operands share no set bits. -/
theorem lor_eq_add_of_disjoint :
    ∀ (n a b : Nat), 2 ^ n ∣ a → b < 2 ^ n → a ||| b = a + b := by
  intro n
  induction n with
  | zero =>
    intro a b _ hb
    interval_cases b
    simp
  | succ n ih =>
    intro a b ha hb
    obtain ⟨c, hc⟩ := ha
    have hpow : 2 ^ (n + 1) = 2 * 2 ^ n := by ring
    have hc2 : a = 2 * (2 ^ n * c) := by rw [hc, hpow]; ring
    have ha2 : a % 2 = 0 := by omega
    have hdvd : 2 ^ n ∣ a / 2 := ⟨c, by omega⟩
    have hblt : b / 2 < 2 ^ n := by omega
    have hdiv : (a ||| b) / 2 = a / 2 + b / 2 := by
      rw [Nat.or_div_two]
      exact ih (a / 2) (b / 2) hdvd hblt
    have hmod : (a ||| b) % 2 = b % 2 := by
      rcases Nat.mod_two_eq_zero_or_one b with hb2 | hb2
      · have : ¬ ((a ||| b) % 2 = 1) := by
          rw [Nat.or_mod_two_eq_one]
          omega
        omega
      · have : (a ||| b) % 2 = 1 := by
          rw [Nat.or_mod_two_eq_one]
          omega
        omega
    have h1 : a ||| b = 2 * ((a ||| b) / 2) + (a ||| b) % 2 := by omega
    omega

/-- `decodeUint32BE` on a list of bytes is base-256 digit evaluation. -/
theorem decodeUint32BE_eq_digits (b0 b1 b2 b3 : Nat) (rest : List Nat)
    (h0 : b0 < 256) (h1 : b1 < 256) (h2 : b2 < 256) (h3 : b3 < 256) :
    decodeUint32BE (b0 :: b1 :: b2 :: b3 :: rest) =
      ((b0 * 256 + b1) * 256 + b2) * 256 + b3 := by
  show (b0 <<< 24) ||| (b1 <<< 16) ||| (b2 <<< 8) ||| b3 = _
  rw [Nat.shiftLeft_eq, Nat.shiftLeft_eq, Nat.shiftLeft_eq]
  have e1 : b0 * 2 ^ 24 ||| b1 * 2 ^ 16 = b0 * 2 ^ 24 + b1 * 2 ^ 16 := by
    exact lor_eq_add_of_disjoint 24 _ _ ⟨b0, by ring⟩ (by omega)
  have e2 : (b0 * 2 ^ 24 + b1 * 2 ^ 16) ||| b2 * 2 ^ 8 =
      b0 * 2 ^ 24 + b1 * 2 ^ 16 + b2 * 2 ^ 8 := by
    exact lor_eq_add_of_disjoint 16 _ _ ⟨b0 * 256 + b1, by ring⟩ (by omega)
  have e3 : (b0 * 2 ^ 24 + b1 * 2 ^ 16 + b2 * 2 ^ 8) ||| b3 =
      b0 * 2 ^ 24 + b1 * 2 ^ 16 + b2 * 2 ^ 8 + b3 := by
    exact lor_eq_add_of_disjoint 8 _ _ ⟨(b0 * 256 + b1) * 256 + b2, by ring⟩ (by omega)
  rw [e1, e2, e3]
  ring

/-- `ipv4ToUint32` is base-256 digit evaluation of the four octets. -/
theorem ipv4ToUint32_eq_digits (a b c d : Nat)
    (h0 : a < 256) (h1 : b < 256) (h2 : c < 256) (h3 : d < 256) :
    ipv4ToUint32 a b c d = ((a * 256 + b) * 256 + c) * 256 + d := by
  have := decodeUint32BE_eq_digits a b c d [] h0 h1 h2 h3
  exact this

/-- The bytes produced by `encodeUint32BE` are bytes. -/
theorem encodeUint32BE_bytes (v : Nat) : ∀ b ∈ encodeUint32BE v, b < 256 := by
  intro b hb
  simp only [encodeUint32BE, List.mem_cons, List.mem_singleton] at hb
  rcases hb with h | h | h | h | h
  all_goals first
    | (subst h; exact Nat.mod_lt _ (by norm_num))
    | exact absurd h (by simp)

/-- Round-trip: decoding an encoded `uint32` recovers the value. -/
theorem decode_encode (v : Nat) (hv : v < 2 ^ 32) :
    decodeUint32BE (encodeUint32BE v) = v := by
  show decodeUint32BE
      ((v >>> 24) % 256 :: (v >>> 16) % 256 :: (v >>> 8) % 256 :: v % 256 :: []) = v
  rw [decodeUint32BE_eq_digits _ _ _ _ _
    (Nat.mod_lt _ (by norm_num)) (Nat.mod_lt _ (by norm_num))
    (Nat.mod_lt _ (by norm_num)) (Nat.mod_lt _ (by norm_num))]
  rw [Nat.shiftRight_eq_div_pow, Nat.shiftRight_eq_div_pow, Nat.shiftRight_eq_div_pow]
  have h32 : (2 : Nat) ^ 32 = 4294967296 := by norm_num
  have h24 : (2 : Nat) ^ 24 = 16777216 := by norm_num
  have h16 : (2 : Nat) ^ 16 = 65536 := by norm_num
  have h8 : (2 : Nat) ^ 8 = 256 := by norm_num
  rw [h24, h16, h8]
  omega

theorem bytesCompare_eq_iff : ∀ a b : List Nat, bytesCompare a b = .eq ↔ a = b := by
  intro a
  induction a with
  | nil =>
    intro b
    cases b <;> simp [bytesCompare]
  | cons x xs ih =>
    intro b
    cases b with
    | nil => simp [bytesCompare]
    | cons y ys =>
      simp only [bytesCompare]
      by_cases hxy : x < y
      · simp [hxy]
        omega
      · by_cases hyx : y < x
        · simp [hxy, hyx]
          omega
        · have hxyeq : x = y := by omega
          simp [hxy, hyx, hxyeq, ih]

theorem bytesCompare_self (a : List Nat) : bytesCompare a a = .eq :=
  (bytesCompare_eq_iff a a).mpr rfl

/-- Comparison of equal-length prefixes: comparing `p ++ x` with `q ++ y`
first compares `p` with `q` and only on a tie compares the tails. -/
theorem bytesCompare_append :
    ∀ p q x y : List Nat, p.length = q.length →
      bytesCompare (p ++ x) (q ++ y) =
        (if bytesCompare p q = .eq then bytesCompare x y else bytesCompare p q) := by
  intro p
  induction p with
  | nil =>
    intro q x y hlen
    cases q with
    | nil => simp [bytesCompare]
    | cons _ _ => simp at hlen
  | cons a as ih =>
    intro q x y hlen
    cases q with
    | nil => simp at hlen
    | cons b bs =>
      simp only [List.cons_append, bytesCompare]
      by_cases hab : a < b
      · simp [hab]
      · by_cases hba : b < a
        · simp [hab, hba]
        · simp only [if_neg hab, if_neg hba]
          exact ih bs x y (by simpa using hlen)

/-- The four bytes of `encodeUint32BE` compare exactly as the encoded
values do (for values that fit in 32 bits). -/
theorem bytesCompare_encode (v w : Nat) (hv : v < 2 ^ 32) (hw : w < 2 ^ 32) :
    bytesCompare (encodeUint32BE v) (encodeUint32BE w) =
      (if v < w then Ordering.lt else if w < v then Ordering.gt else Ordering.eq) := by
  simp only [encodeUint32BE, bytesCompare, Nat.shiftRight_eq_div_pow]
  have h24 : (2 : Nat) ^ 24 = 16777216 := by norm_num
  have h16 : (2 : Nat) ^ 16 = 65536 := by norm_num
  have h8 : (2 : Nat) ^ 8 = 256 := by norm_num
  rw [h24, h16, h8]
  split_ifs <;> first | rfl | (exfalso; omega)

/-- Order preservation of the big-endian encoding, `≤` form. -/
theorem lexLE_encode_iff (v w : Nat) (hv : v < 2 ^ 32) (hw : w < 2 ^ 32) :
    lexLE (encodeUint32BE v) (encodeUint32BE w) = true ↔ v ≤ w := by
  unfold lexLE
  rw [bytesCompare_encode v w hv hw]
  split_ifs with h1 h2 <;> simp <;> omega

/-- Byte-lexicographically ordered keys of at least 4 bytes have
non-decreasing decoded `start` fields. -/
theorem lexLE_decode_le (k₁ k₂ : List Nat)
    (hb₁ : ∀ b ∈ k₁, b < 256) (hb₂ : ∀ b ∈ k₂, b < 256)
    (h₁ : 4 ≤ k₁.length) (h₂ : 4 ≤ k₂.length)
    (hle : lexLE k₁ k₂ = true) :
    decodeUint32BE k₁ ≤ decodeUint32BE k₂ := by
  rcases k₁ with _ | ⟨a0, k₁⟩
  · simp only [List.length_cons, List.length_nil] at h₁; omega
  rcases k₁ with _ | ⟨a1, k₁⟩
  · simp only [List.length_cons, List.length_nil] at h₁; omega
  rcases k₁ with _ | ⟨a2, k₁⟩
  · simp only [List.length_cons, List.length_nil] at h₁; omega
  rcases k₁ with _ | ⟨a3, r₁⟩
  · simp only [List.length_cons, List.length_nil] at h₁; omega
  rcases k₂ with _ | ⟨b0, k₂⟩
  · simp only [List.length_cons, List.length_nil] at h₂; omega
  rcases k₂ with _ | ⟨b1, k₂⟩
  · simp only [List.length_cons, List.length_nil] at h₂; omega
  rcases k₂ with _ | ⟨b2, k₂⟩
  · simp only [List.length_cons, List.length_nil] at h₂; omega
  rcases k₂ with _ | ⟨b3, r₂⟩
  · simp only [List.length_cons, List.length_nil] at h₂; omega
  have ha0 : a0 < 256 := hb₁ _ (by simp)
  have ha1 : a1 < 256 := hb₁ _ (by simp)
  have ha2 : a2 < 256 := hb₁ _ (by simp)
  have ha3 : a3 < 256 := hb₁ _ (by simp)
  have hbb0 : b0 < 256 := hb₂ _ (by simp)
  have hbb1 : b1 < 256 := hb₂ _ (by simp)
  have hbb2 : b2 < 256 := hb₂ _ (by simp)
  have hbb3 : b3 < 256 := hb₂ _ (by simp)
  rw [decodeUint32BE_eq_digits a0 a1 a2 a3 r₁ ha0 ha1 ha2 ha3,
    decodeUint32BE_eq_digits b0 b1 b2 b3 r₂ hbb0 hbb1 hbb2 hbb3]
  unfold lexLE at hle
  simp only [decide_eq_true_eq] at hle
  simp only [bytesCompare] at hle
  split_ifs at hle <;> first | omega | (exact absurd rfl hle)

/-- C1: on a numeric index iterated in ascending key order, the scan
(with its early exit) succeeds if and only if some stored entry contains
the target; the early exit never skips a containing entry. -/
theorem numeric_scan_complete (entries : NumericBucket) (ipNum : Nat)
    (hbytes : ∀ e ∈ entries, ∀ b ∈ e.1, b < 256)
    (hsorted : entries.Pairwise (fun e₁ e₂ => lexLE e₁.1 e₂.1 = true)) :
    (lookupCountryByIPNumeric entries ipNum).isSome = true ↔
      ∃ e ∈ entries, entryContains e ipNum := by
  induction entries with
  | nil => simp [lookupCountryByIPNumeric]
  | cons e rest ih =>
    obtain ⟨k, v⟩ := e
    rw [List.pairwise_cons] at hsorted
    obtain ⟨hhead, htail⟩ := hsorted
    have hbk : ∀ b ∈ k, b < 256 := hbytes (k, v) (by simp)
    have hbrest : ∀ e ∈ rest, ∀ b ∈ e.1, b < 256 := fun e he => hbytes e (by simp [he])
    have ihr := ih hbrest htail
    simp only [lookupCountryByIPNumeric]
    by_cases h8 : 8 ≤ k.length
    · rw [if_pos h8]
      by_cases hc : ipNum ≥ decodeUint32BE k ∧ ipNum ≤ decodeUint32BE (k.drop 4)
      · rw [if_pos hc]
        simp only [Option.isSome_some, true_iff]
        exact ⟨(k, v), by simp, h8, hc.1, hc.2⟩
      · rw [if_neg hc]
        by_cases hgt : decodeUint32BE k > ipNum
        · rw [if_pos hgt]
          simp only [Option.isSome_none, Bool.false_eq_true, false_iff]
          rintro ⟨e', he', hlen', hs', he2'⟩
          rcases List.mem_cons.mp he' with rfl | hmem
          · exact absurd ⟨hs', he2'⟩ hc
          · have hlex := hhead e' hmem
            have : decodeUint32BE k ≤ decodeUint32BE e'.1 :=
              lexLE_decode_le k e'.1 hbk (hbrest e' hmem)
                (by omega) (by omega) hlex
            omega
        · rw [if_neg hgt]
          rw [ihr]
          constructor
          · rintro ⟨e', he', hcont⟩
            exact ⟨e', by simp [he'], hcont⟩
          · rintro ⟨e', he', hcont⟩
            rcases List.mem_cons.mp he' with rfl | hmem
            · exact absurd ⟨hcont.2.1, hcont.2.2⟩ hc
            · exact ⟨e', hmem, hcont⟩
    · rw [if_neg h8]
      rw [ihr]
      constructor
      · rintro ⟨e', he', hcont⟩
        exact ⟨e', by simp [he'], hcont⟩
      · rintro ⟨e', he', hcont⟩
        rcases List.mem_cons.mp he' with rfl | hmem
        · exact absurd hcont.1 h8
        · exact ⟨e', hmem, hcont⟩

/-- Witness for C1 on a concrete two-entry sorted index. -/
theorem numeric_scan_complete_witness :
    (lookupCountryByIPNumeric
        [(encodeUint32BE 10 ++ encodeUint32BE 20, "FR"),
         (encodeUint32BE 30 ++ encodeUint32BE 40, "DE")] 35).isSome = true ↔
      ∃ e ∈ [(encodeUint32BE 10 ++ encodeUint32BE 20, "FR"),
             (encodeUint32BE 30 ++ encodeUint32BE 40, "DE")], entryContains e 35 :=
  numeric_scan_complete _ 35 (by decide) (by decide)

/-- C2: the fixed-width big-endian encoding is order-preserving, and
consequently a numeric index whose 8-byte keys are in ascending
lexicographic byte order is in ascending numeric order of `start`. -/
theorem encode_order_preserving (v w : Nat) (hv : v < 2 ^ 32) (hw : w < 2 ^ 32)
    (entries : NumericBucket)
    (hbytes : ∀ e ∈ entries, ∀ b ∈ e.1, b < 256)
    (hlen : ∀ e ∈ entries, 8 ≤ e.1.length)
    (hsorted : entries.Pairwise (fun e₁ e₂ => lexLE e₁.1 e₂.1 = true)) :
    (lexLE (encodeUint32BE v) (encodeUint32BE w) = true ↔ v ≤ w) ∧
      entries.Pairwise (fun e₁ e₂ => decodeUint32BE e₁.1 ≤ decodeUint32BE e₂.1) := by
  refine ⟨lexLE_encode_iff v w hv hw, ?_⟩
  refine List.Pairwise.imp_of_mem ?_ hsorted
  intro e₁ e₂ h₁ h₂ hlex
  exact lexLE_decode_le e₁.1 e₂.1 (hbytes e₁ h₁) (hbytes e₂ h₂)
    (by have := hlen e₁ h₁; omega) (by have := hlen e₂ h₂; omega) hlex

/-- Witness for C2 at concrete values and a concrete sorted index. -/
theorem encode_order_preserving_witness :
    (lexLE (encodeUint32BE 3) (encodeUint32BE 7) = true ↔ 3 ≤ 7) ∧
      ([(encodeUint32BE 10 ++ encodeUint32BE 20, "FR"),
        (encodeUint32BE 30 ++ encodeUint32BE 40, "DE")] :
          NumericBucket).Pairwise
        (fun e₁ e₂ => decodeUint32BE e₁.1 ≤ decodeUint32BE e₂.1) :=
  encode_order_preserving 3 7 (by norm_num) (by norm_num) _
    (by decide) (by decide) (by decide)

/-- `ipv4ToUint32` coincides with `decodeUint32BE` (same big-endian fold). -/
theorem ipv4ToUint32_eq_decode (a b c d : Nat) (rest : List Nat) :
    ipv4ToUint32 a b c d = decodeUint32BE (a :: b :: c :: d :: rest) := rfl

/-- C5: `parseRange` on a CIDR returns the network address and
`start | ((1 << (32 - prefixLen)) - 1)`, with the two concrete examples
from the spec, and fails exactly on strings that are neither a valid
CIDR (when a `'/'` is present) nor a valid `"A-B"` pair (otherwise). -/
theorem parseIPRange_spec :
    parseIPRange "192.168.1.0/24" = some (3232235776, 3232236031) ∧
    parseIPRange "10.0.0.0/8" = some (167772160, 184549375) ∧
    (∀ s net n, containsChar s.data '/' = true → parseCIDRv4 s = some (net, n) →
      parseIPRange s = some (net, net ||| ((1 <<< (32 - n)) - 1))) ∧
    (∀ s, containsChar s.data '/' = true → parseCIDRv4 s = none →
      parseIPRange s = none) ∧
    (∀ s, containsChar s.data '/' = false →
      ((parseIPRange s).isSome = true ↔
        ∃ p1 p2 a b, splitOnChar '-' s.data = [p1, p2] ∧
          parseIPv4CL (trimSpace p1) = some a ∧ parseIPv4CL (trimSpace p2) = some b)) := by
  refine ⟨by decide, by decide, ?_, ?_, ?_⟩
  · intro s net n hc hp
    simp only [parseIPRange, hc, if_true, hp]
  · intro s hc hp
    simp only [parseIPRange, hc, if_true, hp]
  · intro s hc
    simp only [parseIPRange, hc, Bool.false_eq_true, if_false]
    rcases hsplit : splitOnChar '-' s.data with _ | ⟨p1, _ | ⟨p2, _ | ⟨p3, ps⟩⟩⟩ <;>
      simp only [Option.isSome_none, Bool.false_eq_true, false_iff]
    · rintro ⟨q1, q2, a, b, habs, _⟩
      simp at habs
    · rintro ⟨q1, q2, a, b, habs, _⟩
      simp at habs
    case cons.cons.nil =>
      rcases h1 : parseIPv4CL (trimSpace p1) with _ | a <;>
        rcases h2 : parseIPv4CL (trimSpace p2) with _ | b <;>
        simp only [h1, h2]
      · constructor
        · intro hs
          simp at hs
        · rintro ⟨q1, q2, a', b', hq, ha', hb'⟩
          injection hq with e1 hq
          injection hq with e2 _
          subst e1; subst e2
          rw [h1] at ha'
          exact absurd ha' (by simp)
      · constructor
        · intro hs
          simp at hs
        · rintro ⟨q1, q2, a', b', hq, ha', hb'⟩
          injection hq with e1 hq
          injection hq with e2 _
          subst e1; subst e2
          rw [h1] at ha'
          exact absurd ha' (by simp)
      · constructor
        · intro hs
          simp at hs
        · rintro ⟨q1, q2, a', b', hq, ha', hb'⟩
          injection hq with e1 hq
          injection hq with e2 _
          subst e1; subst e2
          rw [h2] at hb'
          exact absurd hb' (by simp)
      · simp only [Option.isSome_some, true_iff]
        exact ⟨p1, p2, a, b, rfl, h1, h2⟩
    case cons.cons.cons =>
      rintro ⟨q1, q2, a, b, habs, _⟩
      injection habs with _ habs
      injection habs with _ habs
      simp at habs

/-- Witness for the quantified parts of C5 at concrete inputs. -/
theorem parseIPRange_spec_witness :
    parseIPRange "8.8.0.0/16" = some (134742016, 134807551) ∧
    parseIPRange "1.2.3.4/99" = none ∧
    ((parseIPRange "192.168.1.1-192.168.1.10").isSome = true ↔
      ∃ p1 p2 a b, splitOnChar '-' "192.168.1.1-192.168.1.10".data = [p1, p2] ∧
        parseIPv4CL (trimSpace p1) = some a ∧ parseIPv4CL (trimSpace p2) = some b) := by
  refine ⟨?_, ?_, ?_⟩
  · have h := parseIPRange_spec.2.2.1 "8.8.0.0/16" 134742016 16 (by decide) (by decide)
    simpa using h
  · exact parseIPRange_spec.2.2.2.1 "1.2.3.4/99" (by decide) (by decide)
  · exact parseIPRange_spec.2.2.2.2 "192.168.1.1-192.168.1.10" (by decide)

theorem mapGet_mapPut_self (m : List (String × String)) (k v : String) :
    mapGet (mapPut m k v) k = some v := by
  induction m with
  | nil => simp [mapGet, mapPut]
  | cons kv rest ih =>
    obtain ⟨k', v'⟩ := kv
    by_cases h : k = k' <;> simp [mapGet, mapPut, h, ih]

theorem mapGet_mapPut_other (m : List (String × String)) (k v k' : String)
    (h : k' ≠ k) : mapGet (mapPut m k v) k' = mapGet m k' := by
  induction m with
  | nil => simp [mapGet, mapPut, h]
  | cons kv rest ih =>
    obtain ⟨k₀, v₀⟩ := kv
    by_cases h0 : k = k₀
    · subst h0
      simp [mapGet, mapPut, h]
    · by_cases h1 : k' = k₀ <;> simp [mapGet, mapPut, h0, h1, ih]

theorem mapPut_length_le (m : List (String × String)) (k v : String) :
    (mapPut m k v).length ≤ m.length + 1 := by
  induction m with
  | nil => simp [mapPut]
  | cons kv rest ih =>
    obtain ⟨k₀, v₀⟩ := kv
    by_cases h : k = k₀ <;> simp [mapPut, h] <;> omega

theorem getCountry_putCountry_self (c : IPCache) (ip v : String) :
    getCountry (putCountry c ip v) ip = some v := by
  unfold getCountry putCountry
  by_cases h : c.currentSize ≥ c.maxSize <;> simp [h, mapGet_mapPut_self]

/-- C3: for a query missing from the cache, resolution fails with the
invalid-address error exactly when the text does not parse as IPv4, fails
with the not-found error exactly when it parses but both the numeric scan
and the full textual fallback find nothing, a failed resolution leaves
the cache untouched, and a successful one caches the result under the
original query string. -/
theorem lookup_error_spec (db : LocalDB) (c : IPCache) (ip : String)
    (hmiss : getCountry c ip = none) :
    ((lookupCountryByIP db c ip).1 = .error .invalidAddress ↔ parseIPv4 ip = none) ∧
    ((lookupCountryByIP db c ip).1 = .error .notFound ↔
      (∃ q, parseIPv4 ip = some q ∧
        lookupCountryByIPNumeric db.ip_ranges_numeric (ipListToUint32 q) = none) ∧
      ∀ kv ∈ db.ip_ranges, ipv4InRange ip kv.1 = false) ∧
    (∀ e, (lookupCountryByIP db c ip).1 = .error e →
      (lookupCountryByIP db c ip).2 = c) ∧
    (∀ country, (lookupCountryByIP db c ip).1 = .ok country →
      (lookupCountryByIP db c ip).2 = putCountry c ip country) := by
  rcases hp : parseIPv4 ip with _ | q
  · have heq : lookupCountryByIP db c ip = (.error .invalidAddress, c) := by
      simp only [lookupCountryByIP, hmiss, hp]
    refine ⟨?_, ?_, ?_, ?_⟩ <;> rw [heq]
    · simp [hp]
    · simp [hp]
    · intro e _
      rfl
    · intro country h
      exact absurd h (by simp)
  · rcases hn : lookupCountryByIPNumeric db.ip_ranges_numeric (ipListToUint32 q)
      with _ | country
    · rcases hf : db.ip_ranges.find? (fun kv => ipv4InRange ip kv.1) with _ | kv
      · have heq : lookupCountryByIP db c ip = (.error .notFound, c) := by
          simp only [lookupCountryByIP, hmiss, hp, hn, hf]
        have hall : ∀ kv ∈ db.ip_ranges, ipv4InRange ip kv.1 = false := by
          intro kv hkv
          have := List.find?_eq_none.mp hf kv hkv
          simpa using this
        refine ⟨?_, ?_, ?_, ?_⟩ <;> rw [heq]
        · simp [hp]
        · simp only [true_iff, iff_true]
          exact ⟨⟨q, rfl, hn⟩, hall⟩
        · intro e _
          rfl
        · intro country h
          exact absurd h (by simp)
      · have heq : lookupCountryByIP db c ip = (.ok kv.2, putCountry c ip kv.2) := by
          simp only [lookupCountryByIP, hmiss, hp, hn, hf]
        refine ⟨?_, ?_, ?_, ?_⟩ <;> rw [heq]
        · simp [hp]
        · simp only [reduceCtorEq, false_iff, not_and]
          rintro -
          intro hall
          have hkv := List.find?_some hf
          have hmem := List.mem_of_find?_eq_some hf
          have := hall kv hmem
          rw [this] at hkv
          exact absurd hkv (by simp)
        · intro e h
          exact absurd h (by simp)
        · intro country h
          injection h with h
          subst h
          rfl
    · have heq : lookupCountryByIP db c ip = (.ok country, putCountry c ip country) := by
        simp only [lookupCountryByIP, hmiss, hp, hn]
      refine ⟨?_, ?_, ?_, ?_⟩ <;> rw [heq]
      · simp [hp]
      · simp only [reduceCtorEq, false_iff, not_and]
        rintro ⟨q', hq', hn'⟩
        injection hq' with hq'
        subst hq'
        exact absurd hn' (by simp [hn])
      · intro e h
        exact absurd h (by simp)
      · intro cc h
        injection h with h
        subst h
        rfl

/-- Witness for C3 on an empty database and cache with a malformed query. -/
theorem lookup_error_spec_witness :
    ((lookupCountryByIP ⟨[], []⟩ (newIPCache 10) "not-an-ip").1 =
        .error .invalidAddress ↔ parseIPv4 "not-an-ip" = none) ∧
    ((lookupCountryByIP ⟨[], []⟩ (newIPCache 10) "not-an-ip").1 = .error .notFound ↔
      (∃ q, parseIPv4 "not-an-ip" = some q ∧
        lookupCountryByIPNumeric (LocalDB.mk [] []).ip_ranges_numeric
          (ipListToUint32 q) = none) ∧
      ∀ kv ∈ (LocalDB.mk [] []).ip_ranges, ipv4InRange "not-an-ip" kv.1 = false) ∧
    (∀ e, (lookupCountryByIP ⟨[], []⟩ (newIPCache 10) "not-an-ip").1 = .error e →
      (lookupCountryByIP ⟨[], []⟩ (newIPCache 10) "not-an-ip").2 = newIPCache 10) ∧
    (∀ country,
      (lookupCountryByIP ⟨[], []⟩ (newIPCache 10) "not-an-ip").1 = .ok country →
      (lookupCountryByIP ⟨[], []⟩ (newIPCache 10) "not-an-ip").2 =
        putCountry (newIPCache 10) "not-an-ip" country) :=
  lookup_error_spec ⟨[], []⟩ (newIPCache 10) "not-an-ip" (by decide)

/-- C4: a cached successful resolution is never invalidated by an index
write: after any `upsertIPRangeCountry` (in particular one that
re-associates the containing range with a different country), repeating
the same query returns the originally cached country unchanged. -/
theorem cached_result_stable (db : LocalDB) (c : IPCache) (ip country : String)
    (c' : IPCache) (h : lookupCountryByIP db c ip = (.ok country, c'))
    (rtext : String) (start stop : Nat) (newCountry : String) :
    lookupCountryByIP (upsertIPRangeCountry db rtext start stop newCountry) c' ip =
      (.ok country, c') := by
  have hc' : getCountry c' ip = some country := by
    unfold lookupCountryByIP at h
    rcases hg : getCountry c ip with _ | v
    · rw [hg] at h
      rcases hp : parseIPv4 ip with _ | q
      · rw [hp] at h
        simp at h
      · rw [hp] at h
        simp only at h
        rcases hn : lookupCountryByIPNumeric db.ip_ranges_numeric (ipListToUint32 q)
          with _ | v
        · rw [hn] at h
          rcases hf : db.ip_ranges.find? (fun kv => ipv4InRange ip kv.1) with _ | kv
          · rw [hf] at h
            simp at h
          · rw [hf] at h
            obtain ⟨h1, h2⟩ := Prod.mk.injEq .. ▸ h
            injection h1 with h1
            subst h1
            rw [← h2]
            exact getCountry_putCountry_self c ip kv.2
        · rw [hn] at h
          obtain ⟨h1, h2⟩ := Prod.mk.injEq .. ▸ h
          injection h1 with h1
          subst h1
          rw [← h2]
          exact getCountry_putCountry_self c ip v
    · rw [hg] at h
      obtain ⟨h1, h2⟩ := Prod.mk.injEq .. ▸ h
      injection h1 with h1
      subst h1
      subst h2
      exact hg
  unfold lookupCountryByIP
  rw [hc']

/-- Witness for C4: cache a lookup on a one-range database, upsert the
same range to a different country, and observe the cached answer. -/
theorem cached_result_stable_witness :
    lookupCountryByIP
      (upsertIPRangeCountry
        (upsertIPRangeCountry ⟨[], []⟩ "1.0.0.0-1.0.0.255" 16777216 16777471 "FR")
        "1.0.0.0-1.0.0.255" 16777216 16777471 "IT")
      (putCountry (newIPCache 100) "1.0.0.123" "FR") "1.0.0.123" =
      (.ok "FR", putCountry (newIPCache 100) "1.0.0.123" "FR") :=
  cached_result_stable
    (upsertIPRangeCountry ⟨[], []⟩ "1.0.0.0-1.0.0.255" 16777216 16777471 "FR")
    (newIPCache 100) "1.0.0.123" "FR"
    (putCountry (newIPCache 100) "1.0.0.123" "FR")
    (by rfl) "1.0.0.0-1.0.0.255" 16777216 16777471 "IT"

theorem cache_invariant (ops : List CacheOp) :
    ∀ c : IPCache, c.cache.length ≤ c.currentSize → c.currentSize ≤ c.maxSize →
      1 ≤ c.maxSize →
      (applyCacheOps c ops).cache.length ≤ (applyCacheOps c ops).currentSize ∧
        (applyCacheOps c ops).currentSize ≤ (applyCacheOps c ops).maxSize ∧
        (applyCacheOps c ops).maxSize = c.maxSize := by
  induction ops with
  | nil =>
    intro c h1 h2 h3
    exact ⟨h1, h2, rfl⟩
  | cons op rest ih =>
    intro c h1 h2 h3
    have hstep : (applyCacheOp c op).cache.length ≤ (applyCacheOp c op).currentSize ∧
        (applyCacheOp c op).currentSize ≤ (applyCacheOp c op).maxSize ∧
        (applyCacheOp c op).maxSize = c.maxSize := by
      cases op with
      | getOp ip => exact ⟨h1, h2, rfl⟩
      | putOp ip country =>
        simp only [applyCacheOp, putCountry]
        by_cases hfull : c.currentSize ≥ c.maxSize
        · simp only [if_pos hfull]
          refine ⟨?_, by omega, by trivial⟩
          have := mapPut_length_le [] ip country
          simpa using this
        · simp only [if_neg hfull]
          refine ⟨?_, by omega, by trivial⟩
          have := mapPut_length_le c.cache ip country
          omega
    have := ih (applyCacheOp c op) hstep.1 (hstep.2.2 ▸ hstep.2.1)
      (hstep.2.2 ▸ h3)
    simp only [applyCacheOps, List.foldl_cons] at *
    exact ⟨this.1, this.2.1, this.2.2.trans hstep.2.2⟩

/-- C10: with `maxSize ≥ 1` the number of entries in the cache map never
exceeds `maxSize` after any finite operation sequence; for `maxSize = 0`
the bound fails already after one insert. -/
theorem cache_size_bounded (maxSize : Nat) (ops : List CacheOp)
    (h : 1 ≤ maxSize) :
    (applyCacheOps (newIPCache maxSize) ops).cache.length ≤ maxSize ∧
      ¬ ((putCountry (newIPCache 0) "8.8.8.8" "US").cache.length ≤ 0) := by
  constructor
  · have := cache_invariant ops (newIPCache maxSize) (by simp [newIPCache])
      (by simp [newIPCache]) (by simpa [newIPCache] using h)
    have hmax : (applyCacheOps (newIPCache maxSize) ops).maxSize = maxSize := this.2.2
    omega
  · decide

/-- Witness for C10 with `maxSize = 3` and four inserts (overflow reset). -/
theorem cache_size_bounded_witness :
    (applyCacheOps (newIPCache 3)
        [.putOp "192.168.1.1" "FR", .putOp "10.0.0.1" "DE",
         .putOp "172.16.0.1" "US", .putOp "8.8.8.8" "US"]).cache.length ≤ 3 ∧
      ¬ ((putCountry (newIPCache 0) "8.8.8.8" "US").cache.length ≤ 0) :=
  cache_size_bounded 3 _ (by norm_num)

/-- C8 counterexample: on a two-key index in descending order there is
exactly one inversion position, but the function returns 2 — it returns
the total number of scanned entries, not the inversion count. -/
theorem verifyRangeIndexes_count_is_not_inversions :
    descents (decodedStarts
      [encodeUint32BE 5 ++ encodeUint32BE 6,
       encodeUint32BE 3 ++ encodeUint32BE 4]) = 1 ∧
    (verifyRangeIndexes
      [encodeUint32BE 5 ++ encodeUint32BE 6,
       encodeUint32BE 3 ++ encodeUint32BE 4]).1 = 2 := by
  constructor <;> decide

theorem verifyRangeIndexesGo_spec (ks : List (List Nat)) :
    ∀ count warnings lastStart, 0 < count →
      verifyRangeIndexesGo count warnings lastStart ks =
        (count + (ks.filter (fun k => 4 ≤ k.length)).length,
          warnings + descents (lastStart :: decodedStarts ks)) := by
  induction ks with
  | nil =>
    intro count warnings lastStart _
    simp [verifyRangeIndexesGo, descents]
  | cons k rest ih =>
    intro count warnings lastStart hpos
    by_cases h4 : 4 ≤ k.length
    · simp only [verifyRangeIndexesGo, if_pos h4]
      rw [ih (count + 1) _ (decodeUint32BE k) (by omega)]
      have hdec : decodedStarts (k :: rest) = decodeUint32BE k :: decodedStarts rest := by
        simp [decodedStarts, h4]
      rw [hdec]
      have hfil : (List.filter (fun k => decide (4 ≤ k.length)) (k :: rest)).length =
          (List.filter (fun k => decide (4 ≤ k.length)) rest).length + 1 := by
        simp [List.filter_cons, h4]
      simp only [Prod.mk.injEq]
      constructor
      · omega
      · rw [descents]
        by_cases hlt : decodeUint32BE k < lastStart
        · rw [if_pos (⟨hpos, hlt⟩ : 0 < count ∧ decodeUint32BE k < lastStart), if_pos hlt]
          omega
        · rw [if_neg (fun hc => hlt hc.2), if_neg hlt]
          omega
    · simp only [verifyRangeIndexesGo, if_neg h4]
      rw [ih count warnings lastStart hpos]
      have hdec : decodedStarts (k :: rest) = decodedStarts rest := by
        simp [decodedStarts, List.filter_cons, h4]
      rw [hdec]
      simp [List.filter_cons, h4]

/-- C8 amended: the audit walks the numeric index and returns the total
number of entries scanned (keys of length at least 4); the inversion
positions (current `start` below the previous one) are tallied in a
separate warnings counter that Go only logs, never returns; nothing is
corrected. -/
theorem verifyRangeIndexes_spec (ks : List (List Nat)) :
    (verifyRangeIndexes ks).1 = (ks.filter (fun k => 4 ≤ k.length)).length ∧
    (verifyRangeIndexes ks).2 = descents (decodedStarts ks) := by
  unfold verifyRangeIndexes
  induction ks with
  | nil => simp [verifyRangeIndexesGo, decodedStarts, descents]
  | cons k rest ih =>
    by_cases h4 : 4 ≤ k.length
    · simp only [verifyRangeIndexesGo, if_pos h4]
      have : ¬ (0 < 0 ∧ decodeUint32BE k < 0) := by omega
      rw [if_neg this]
      rw [verifyRangeIndexesGo_spec rest 1 0 (decodeUint32BE k) (by omega)]
      have hdec : decodedStarts (k :: rest) = decodeUint32BE k :: decodedStarts rest := by
        simp [decodedStarts, h4]
      rw [hdec]
      constructor
      · simp [List.filter, h4]
        omega
      · simp [descents]
    · simp only [verifyRangeIndexesGo, if_neg h4]
      have hdec : decodedStarts (k :: rest) = decodedStarts rest := by
        simp [decodedStarts, List.filter, h4]
      rw [hdec]
      have hfil : List.filter (fun k => decide (4 ≤ k.length)) (k :: rest) =
          List.filter (fun k => decide (4 ≤ k.length)) rest := by
        simp [List.filter, h4]
      rw [hfil]
      exact ih

/-! ## C9: country-code derivation -/
/-- C9 counterexample: for a file name whose base contains no `'.'`,
`strings.Index` yields `-1` and the slice `[:-1]` panics, so the
derivation is not total: it neither yields a code nor a naming error. -/
theorem deriveCountryCode_panics_without_dot :
    deriveCountryCode "FRzone" = .panicked ∧
    importZoneFile ⟨[], []⟩ "FRzone" ["1.0.0.0-1.0.0.255"] = .panicked := by
  constructor <;> rfl

/-- C9 amended: whenever the base name contains a `'.'`, the derivation
yields the substring before the first `'.'`, failing with the naming
error exactly when that substring is empty and otherwise proceeding with
the import; when the base name contains no `'.'`, the slice panics
(derivation is not total over all file names). -/
theorem deriveCountryCode_spec (file : String) :
    (∀ i, indexOfChar (filepathBase file.data) '.' = some i →
      ((deriveCountryCode file = .failed "empty country code" ↔
          (⟨(filepathBase file.data).take i⟩ : String) = "") ∧
        ((⟨(filepathBase file.data).take i⟩ : String) ≠ "" →
          deriveCountryCode file = .ok ⟨(filepathBase file.data).take i⟩ ∧
          ∀ db lines, ∃ r, importZoneFile db file lines = .ok r))) ∧
    (indexOfChar (filepathBase file.data) '.' = none →
      deriveCountryCode file = .panicked ∧
      ∀ db lines, importZoneFile db file lines = .panicked) := by
  constructor
  · intro i hidx
    by_cases hcc : (⟨(filepathBase file.data).take i⟩ : String) = ""
    · have heq : deriveCountryCode file = .failed "empty country code" := by
        simp only [deriveCountryCode]
        rw [hidx]
        simp [hcc]
      refine ⟨⟨fun _ => hcc, fun _ => heq⟩, ?_⟩
      intro hne
      exact absurd hcc hne
    · have heq : deriveCountryCode file = .ok ⟨(filepathBase file.data).take i⟩ := by
        simp only [deriveCountryCode]
        rw [hidx]
        simp [hcc]
      refine ⟨⟨fun h => ?_, fun h => absurd h hcc⟩, ?_⟩
      · rw [heq] at h
        exact absurd h (by simp)
      · intro _
        refine ⟨heq, ?_⟩
        intro db lines
        unfold importZoneFile
        rw [heq]
        exact ⟨_, rfl⟩
  · intro hidx
    have heq : deriveCountryCode file = .panicked := by
      simp only [deriveCountryCode]
      rw [hidx]
    refine ⟨heq, ?_⟩
    intro db lines
    unfold importZoneFile
    rw [heq]

/-- Witness for C9 (amended) on a dotted and an undotted path. -/
theorem deriveCountryCode_spec_witness :
    deriveCountryCode "zones/FR.zone" = .ok "FR" ∧
    importZoneFile ⟨[], []⟩ "zonesFRzone" [] = .panicked := by
  constructor
  · have h := (deriveCountryCode_spec "zones/FR.zone").1 2 (by decide) |>.2 (by decide)
    have : (⟨(filepathBase "zones/FR.zone".data).take 2⟩ : String) = "FR" := by decide
    rw [this] at h
    exact h.1
  · exact ((deriveCountryCode_spec "zonesFRzone").2 (by decide)).2 ⟨[], []⟩ []

/-! ## C7: directory import -/
theorem startsWith_iff : ∀ (p l : List Char), startsWith l p = true ↔ ∃ t, l = p ++ t := by
  intro p
  induction p with
  | nil =>
    intro l
    simp [startsWith]
  | cons c ps ih =>
    intro l
    cases l with
    | nil => simp [startsWith]
    | cons x xs =>
      simp only [startsWith, Bool.and_eq_true, beq_iff_eq, ih, List.cons_append,
        List.cons.injEq]
      constructor
      · rintro ⟨rfl, t, rfl⟩
        exact ⟨t, rfl, rfl⟩
      · rintro ⟨t, rfl, rfl⟩
        exact ⟨rfl, t, rfl⟩

theorem mem_indexOfChar_isSome (c : Char) :
    ∀ l : List Char, c ∈ l → (indexOfChar l c).isSome = true := by
  intro l
  induction l with
  | nil => simp
  | cons x xs ih =>
    intro hmem
    by_cases hx : x = c
    · simp [indexOfChar, hx]
    · rcases List.mem_cons.mp hmem with rfl | hmem2
      · exact absurd rfl hx
      · simp only [indexOfChar, if_neg hx]
        have := ih hmem2
        rcases h : indexOfChar xs c with _ | i
        · rw [h] at this
          simp at this
        · simp [h]

theorem endsWith_zone_has_dot (s : List Char)
    (h : endsWith s ".zone".data = true) :
    (indexOfChar (filepathBase s) '.').isSome = true := by
  unfold endsWith at h
  have hrev : (".zone".data).reverse = ['e', 'n', 'o', 'z', '.'] := by decide
  rw [hrev] at h
  obtain ⟨t, ht⟩ := (startsWith_iff _ _).mp h
  have hs : ¬ s = [] := by
    intro h0
    subst h0
    simp at ht
  apply mem_indexOfChar_isSome
  simp only [filepathBase]
  rw [if_neg hs, ht]
  simp [List.dropWhile, List.takeWhile]

/-- C7 counterexample: the directory loop skips any path containing the
substring `"zz.zone"`, not only the file literally named `zz.zone`: a
file `buzz.zone` holding one valid public range (which imports as one
processed, one updated entry on its own) contributes nothing. -/
theorem importZoneDirectory_skips_by_substring :
    importZoneDirectory ⟨[], []⟩ [("zones/buzz.zone", ["1.0.0.0-1.0.0.255"])] =
      .ok (⟨[], []⟩, 0, 0) ∧
    (⟨filepathBase "zones/buzz.zone".data⟩ : String) ≠ "zz.zone" ∧
    importZoneFile ⟨[], []⟩ "zones/buzz.zone" ["1.0.0.0-1.0.0.255"] =
      .ok (⟨[("1.0.0.0-1.0.0.255", "buzz")],
        [(encodeUint32BE 16777216 ++ encodeUint32BE 16777471, "buzz")]⟩, 1, 1) := by
  refine ⟨by rfl, by decide, by rfl⟩

theorem importZoneFile_failed_of_derive (db : LocalDB) (name : String)
    (lines : List String) (m : String) (h : deriveCountryCode name = .failed m) :
    importZoneFile db name lines = .failed m := by
  unfold importZoneFile
  rw [h]

theorem importZoneFile_not_panicked (db : LocalDB) (name : String)
    (lines : List String)
    (h : (indexOfChar (filepathBase name.data) '.').isSome = true) :
    importZoneFile db name lines ≠ .panicked := by
  rcases hidx : indexOfChar (filepathBase name.data) '.' with _ | i
  · rw [hidx] at h
    simp at h
  · simp only [importZoneFile, deriveCountryCode]
    rw [hidx]
    by_cases hcc : (⟨(filepathBase name.data).take i⟩ : String) = "" <;>
      simp [hcc]

theorem importZoneDirectoryGo_removal (name : String) (lines : List String)
    (hdrop : ∀ (db : LocalDB) (tp tu : Nat) (rest : List (String × List String)),
      importZoneDirectoryGo db tp tu ((name, lines) :: rest) =
        importZoneDirectoryGo db tp tu rest) :
    ∀ (pre : List (String × List String)) (db : LocalDB) (tp tu : Nat)
      (post : List (String × List String)),
      importZoneDirectoryGo db tp tu (pre ++ (name, lines) :: post) =
        importZoneDirectoryGo db tp tu (pre ++ post) := by
  intro pre
  induction pre with
  | nil =>
    intro db tp tu post
    exact hdrop db tp tu post
  | cons f pre' ih =>
    intro db tp tu post
    obtain ⟨n2, l2⟩ := f
    simp only [List.cons_append, importZoneDirectoryGo]
    by_cases hc : containsSubstring n2.data "zz.zone".data = true
    · simp only [hc, not_true_eq_false, if_false]
      exact ih db tp tu post
    · simp only [hc, not_false_eq_true, if_true]
      rcases himp : importZoneFile db n2 l2 with _ | m | v
      · rfl
      · exact ih db tp tu post
      · obtain ⟨db', p, u⟩ := v
        exact ih db' (tp + p) (tu + u) post

theorem importZoneDirectoryGo_total :
    ∀ (files : List (String × List String)) (db : LocalDB) (tp tu : Nat),
      (∀ f ∈ files, endsWith f.1.data ".zone".data = true) →
      ∃ v, importZoneDirectoryGo db tp tu files = .ok v := by
  intro files
  induction files with
  | nil =>
    intro db tp tu _
    exact ⟨_, rfl⟩
  | cons f rest ih =>
    intro db tp tu hall
    obtain ⟨name, lines⟩ := f
    have hdot : (indexOfChar (filepathBase name.data) '.').isSome = true :=
      endsWith_zone_has_dot name.data (hall (name, lines) (by simp))
    have hrest : ∀ g ∈ rest, endsWith g.1.data ".zone".data = true :=
      fun g hg => hall g (by simp [hg])
    by_cases hc : containsSubstring name.data "zz.zone".data = true
    · simp only [importZoneDirectoryGo, hc, not_true_eq_false, if_false]
      exact ih db tp tu hrest
    · simp only [importZoneDirectoryGo, hc, not_false_eq_true, if_true]
      rcases himp : importZoneFile db name lines with _ | m | v
      · exact absurd himp (importZoneFile_not_panicked db name lines hdot)
      · exact ih db tp tu hrest
      · obtain ⟨db', p, u⟩ := v
        exact ih db' (tp + p) (tu + u) hrest

/-- C7 amended: the directory loop skips exactly the files whose path
contains the substring `"zz.zone"` (in particular, but not only, the
reserved file `zz.zone`); a skipped or failing file contributes nothing
while the rest of the directory is still imported; an ok import adds its
counts; and when every globbed path has the `.zone` suffix the whole
directory import always returns ok — it never fails because one file was
malformed. -/
theorem importZoneDirectory_spec :
    (∀ (db : LocalDB) (pre post : List (String × List String))
        (name : String) (lines : List String),
      containsSubstring name.data "zz.zone".data = true →
      importZoneDirectory db (pre ++ (name, lines) :: post) =
        importZoneDirectory db (pre ++ post)) ∧
    (∀ (db : LocalDB) (pre post : List (String × List String))
        (name : String) (lines : List String) (m : String),
      deriveCountryCode name = .failed m →
      importZoneDirectory db (pre ++ (name, lines) :: post) =
        importZoneDirectory db (pre ++ post)) ∧
    (∀ (db db' : LocalDB) (tp tu p u : Nat) (name : String)
        (lines : List String) (rest : List (String × List String)),
      containsSubstring name.data "zz.zone".data = false →
      importZoneFile db name lines = .ok (db', p, u) →
      importZoneDirectoryGo db tp tu ((name, lines) :: rest) =
        importZoneDirectoryGo db' (tp + p) (tu + u) rest) ∧
    (∀ (db : LocalDB) (files : List (String × List String)),
      (∀ f ∈ files, endsWith f.1.data ".zone".data = true) →
      ∃ v, importZoneDirectory db files = .ok v) := by
  refine ⟨?_, ?_, ?_, ?_⟩
  · intro db pre post name lines hc
    apply importZoneDirectoryGo_removal
    intro db0 tp tu rest
    simp only [importZoneDirectoryGo, hc, not_true_eq_false, if_false]
  · intro db pre post name lines m hfail
    apply importZoneDirectoryGo_removal
    intro db0 tp tu rest
    have hf : importZoneFile db0 name lines = .failed m :=
      importZoneFile_failed_of_derive db0 name lines m hfail
    simp only [importZoneDirectoryGo, hf]
    split <;> rfl
  · intro db db' tp tu p u name lines rest hc hok
    simp only [importZoneDirectoryGo, hc, hok]
    simp
  · intro db files hall
    exact importZoneDirectoryGo_total files db 0 0 hall

/-- Witness for C7 (amended): a concrete directory where the reserved
file is skipped and the rest imports without failure. -/
theorem importZoneDirectory_spec_witness :
    importZoneDirectory ⟨[], []⟩
        ([("d/FR.zone", ["1.0.0.0-1.0.0.255"])] ++
          ("d/zz.zone", ["5.0.0.0-5.0.0.255"]) :: []) =
      importZoneDirectory ⟨[], []⟩ ([("d/FR.zone", ["1.0.0.0-1.0.0.255"])] ++ []) ∧
    (∃ v, importZoneDirectory ⟨[], []⟩ [("d/FR.zone", ["1.0.0.0-1.0.0.255"])] =
      .ok v) :=
  ⟨importZoneDirectory_spec.1 ⟨[], []⟩ [("d/FR.zone", ["1.0.0.0-1.0.0.255"])] []
      "d/zz.zone" ["5.0.0.0-5.0.0.255"] (by decide),
    importZoneDirectory_spec.2.2.2 ⟨[], []⟩ [("d/FR.zone", ["1.0.0.0-1.0.0.255"])]
      (by decide)⟩

/-! ## C6: ingestion idempotence -/
theorem bucketGet_bucketPut_self (m : NumericBucket) (k : List Nat) (v : String) :
    bucketGet (bucketPut m k v) k = some v := by
  induction m with
  | nil => simp [bucketGet, bucketPut, bytesCompare_self]
  | cons kv rest ih =>
    obtain ⟨k', v'⟩ := kv
    rcases h : bytesCompare k k' with hlt | heq | hgt <;>
      simp [bucketGet, bucketPut, h, bytesCompare_self, ih]

theorem bucketGet_bucketPut_other (m : NumericBucket) (k : List Nat) (v : String)
    (k₂ : List Nat) (h : k₂ ≠ k) :
    bucketGet (bucketPut m k v) k₂ = bucketGet m k₂ := by
  have hne : bytesCompare k₂ k ≠ .eq := by
    intro hc
    exact h ((bytesCompare_eq_iff k₂ k).mp hc)
  induction m with
  | nil => simp [bucketGet, bucketPut, hne]
  | cons kv rest ih =>
    obtain ⟨k', v'⟩ := kv
    rcases hcmp : bytesCompare k k' with _ | _ | _
    · simp [bucketGet, bucketPut, hcmp, hne]
    · have hk : k = k' := (bytesCompare_eq_iff k k').mp hcmp
      subst hk
      simp [bucketGet, bucketPut, hcmp, hne]
    · simp [bucketGet, bucketPut, hcmp, ih]

theorem mem_mapPut (m : List (String × String)) (k v : String)
    (kv : String × String) (h : kv ∈ mapPut m k v) : kv = (k, v) ∨ kv ∈ m := by
  induction m with
  | nil =>
    simp [mapPut] at h
    exact Or.inl h
  | cons kv₀ rest ih =>
    obtain ⟨k₀, v₀⟩ := kv₀
    by_cases hk : k = k₀
    · simp only [mapPut, if_pos hk] at h
      rcases List.mem_cons.mp h with rfl | hm
      · exact Or.inl rfl
      · exact Or.inr (by simp [hm])
    · simp only [mapPut, if_neg hk] at h
      rcases List.mem_cons.mp h with rfl | hm
      · exact Or.inr (by simp)
      · rcases ih hm with h1 | h1
        · exact Or.inl h1
        · exact Or.inr (by simp [h1])

theorem mapPut_ne_nil (m : List (String × String)) (k v : String) :
    mapPut m k v ≠ [] := by
  cases m with
  | nil => simp [mapPut]
  | cons kv rest =>
    obtain ⟨k₀, v₀⟩ := kv
    by_cases h : k = k₀ <;> simp [mapPut, h]

theorem mapGet_some_mem_keys (m : List (String × String)) (k v : String)
    (h : mapGet m k = some v) : k ∈ m.map Prod.fst := by
  induction m with
  | nil => simp [mapGet] at h
  | cons kv rest ih =>
    obtain ⟨k₀, v₀⟩ := kv
    by_cases hk : k = k₀
    · simp [hk]
    · simp only [mapGet, if_neg hk] at h
      simp [ih h]

theorem foldl_writeBatchTextStep_identity :
    ∀ (batch : List (String × String)) (acc : List (String × String) × Nat),
      (∀ kv ∈ batch, (mapGet acc.1 kv.1).getD "" = kv.2) →
      batch.foldl writeBatchTextStep acc = acc := by
  intro batch
  induction batch with
  | nil =>
    intro acc _
    rfl
  | cons kv rest ih =>
    intro acc hall
    have hhead : (mapGet acc.1 kv.1).getD "" = kv.2 := hall kv (by simp)
    have hstep : writeBatchTextStep acc kv = acc := by
      simp [writeBatchTextStep, hhead]
    rw [List.foldl_cons, hstep]
    exact ih acc (fun kv2 h2 => hall kv2 (by simp [h2]))

theorem foldl_writeBatchNumericStep_identity :
    ∀ (nb : List IPRange) (num : NumericBucket),
      (∀ r ∈ nb, bucketGet num (rangeKey r) = some r.Country) →
      nb.foldl writeBatchNumericStep num = num := by
  intro nb
  induction nb with
  | nil =>
    intro num _
    rfl
  | cons r rest ih =>
    intro num hall
    have hhead : bucketGet num (rangeKey r) = some r.Country := hall r (by simp)
    have hstep : writeBatchNumericStep num r = num := by
      simp [writeBatchNumericStep, hhead]
    rw [List.foldl_cons, hstep]
    exact ih num (fun r2 h2 => hall r2 (by simp [h2]))

/-- A second commit of a batch whose values are all already stored writes
nothing and counts nothing. -/
theorem writeBatch_identity (db : LocalDB) (batch : List (String × String))
    (nb : List IPRange)
    (ht : ∀ kv ∈ batch, (mapGet db.ip_ranges kv.1).getD "" = kv.2)
    (hn : ∀ r ∈ nb, bucketGet db.ip_ranges_numeric (rangeKey r) = some r.Country) :
    writeBatch db batch nb = (db, 0) := by
  unfold writeBatch
  rw [foldl_writeBatchTextStep_identity batch (db.ip_ranges, 0) ht,
    foldl_writeBatchNumericStep_identity nb db.ip_ranges_numeric hn]

theorem writeBatchTextStep_get_cc (acc : List (String × String) × Nat)
    (kv : String × String) (k cc : String) (hcc : cc ≠ "") (hv : kv.2 = cc)
    (hk : mapGet acc.1 k = some cc ∨ k = kv.1) :
    mapGet (writeBatchTextStep acc kv).1 k = some cc := by
  obtain ⟨k₀, v₀⟩ := kv
  simp only at hv
  simp only [writeBatchTextStep]
  split_ifs with hdiff
  · simp only
    rcases hk with hk | hk
    · by_cases hkk : k = k₀
      · subst hkk
        rw [mapGet_mapPut_self acc.1 k v₀, hv]
      · rw [mapGet_mapPut_other acc.1 k₀ v₀ k hkk]
        exact hk
    · simp only at hk
      subst hk
      rw [mapGet_mapPut_self acc.1 k v₀, hv]
  · simp only [ne_eq, not_not] at hdiff
    rcases hk with hk | hk
    · exact hk
    · simp only at hk
      subst hk
      rcases hget : mapGet acc.1 k with _ | w
      · rw [hget] at hdiff
        simp only [Option.getD_none] at hdiff
        exact absurd (hdiff.trans hv).symm hcc
      · rw [hget] at hdiff
        simp only [Option.getD_some] at hdiff
        rw [hdiff, hv]

theorem foldl_writeBatchTextStep_cc (cc : String) (hcc : cc ≠ "") :
    ∀ (batch : List (String × String)) (acc : List (String × String) × Nat)
      (k : String),
      (∀ kv ∈ batch, kv.2 = cc) →
      (mapGet acc.1 k = some cc ∨ k ∈ batch.map Prod.fst) →
      mapGet (batch.foldl writeBatchTextStep acc).1 k = some cc := by
  intro batch
  induction batch with
  | nil =>
    intro acc k _ hk
    rcases hk with hk | hk
    · exact hk
    · simp at hk
  | cons kv rest ih =>
    intro acc k hall hk
    rw [List.foldl_cons]
    have hrest : ∀ kv2 ∈ rest, kv2.2 = cc := fun kv2 h => hall kv2 (by simp [h])
    have hv : kv.2 = cc := hall kv (by simp)
    have hnext : mapGet (writeBatchTextStep acc kv).1 k = some cc ∨
        k ∈ rest.map Prod.fst := by
      rcases hk with hk | hk
      · exact Or.inl (writeBatchTextStep_get_cc acc kv k cc hcc hv (Or.inl hk))
      · simp only [List.map_cons, List.mem_cons] at hk
        rcases hk with rfl | hk
        · exact Or.inl (writeBatchTextStep_get_cc acc kv kv.1 cc hcc hv (Or.inr rfl))
        · exact Or.inr hk
    exact ih (writeBatchTextStep acc kv) k hrest hnext

theorem writeBatchNumericStep_get_cc (num : NumericBucket) (r : IPRange)
    (k : List Nat) (cc : String) (hv : r.Country = cc)
    (hk : bucketGet num k = some cc ∨ k = rangeKey r) :
    bucketGet (writeBatchNumericStep num r) k = some cc := by
  simp only [writeBatchNumericStep]
  rcases hget : bucketGet num (rangeKey r) with _ | ex
  · simp only
    rcases hk with hk | hk
    · by_cases hkk : k = rangeKey r
      · subst hkk
        rw [hk] at hget
        exact absurd hget (by simp)
      · rw [bucketGet_bucketPut_other num (rangeKey r) r.Country k hkk]
        exact hk
    · subst hk
      rw [bucketGet_bucketPut_self num (rangeKey r) r.Country, hv]
  · simp only
    split_ifs with hdiff
    · rcases hk with hk | hk
      · by_cases hkk : k = rangeKey r
        · subst hkk
          rw [bucketGet_bucketPut_self num (rangeKey r) r.Country, hv]
        · rw [bucketGet_bucketPut_other num (rangeKey r) r.Country k hkk]
          exact hk
      · subst hk
        rw [bucketGet_bucketPut_self num (rangeKey r) r.Country, hv]
    · simp only [ne_eq, not_not] at hdiff
      rcases hk with hk | hk
      · exact hk
      · subst hk
        rw [hget, hdiff, hv]

theorem foldl_writeBatchNumericStep_cc (cc : String) :
    ∀ (nb : List IPRange) (num : NumericBucket) (k : List Nat),
      (∀ r ∈ nb, r.Country = cc) →
      (bucketGet num k = some cc ∨ k ∈ nb.map rangeKey) →
      bucketGet (nb.foldl writeBatchNumericStep num) k = some cc := by
  intro nb
  induction nb with
  | nil =>
    intro num k _ hk
    rcases hk with hk | hk
    · exact hk
    · simp at hk
  | cons r rest ih =>
    intro num k hall hk
    have hr : r.Country = cc := hall r (by simp)
    rw [List.foldl_cons]
    have hrest : ∀ r2 ∈ rest, r2.Country = cc := fun r2 h => hall r2 (by simp [h])
    have hnext : bucketGet (writeBatchNumericStep num r) k = some cc ∨
        k ∈ rest.map rangeKey := by
      rcases hk with hk | hk
      · exact Or.inl (writeBatchNumericStep_get_cc num r k cc hr (Or.inl hk))
      · simp only [List.map_cons, List.mem_cons] at hk
        rcases hk with rfl | hk
        · exact Or.inl (writeBatchNumericStep_get_cc num r (rangeKey r) cc hr (Or.inr rfl))
        · exact Or.inr hk
    exact ih (writeBatchNumericStep num r) k hrest hnext

theorem importLine_none_fields (cc : String) (st : ImportState) (line : String)
    (h : keptRange line = none) :
    (importLine cc st line).db = st.db ∧
    (importLine cc st line).batch = st.batch ∧
    (importLine cc st line).numericBatch = st.numericBatch ∧
    (importLine cc st line).updated = st.updated := by
  simp only [keptRange, lineKey] at h
  simp only [importLine]
  split_ifs at h ⊢ with hA hB <;>
    first
      | exact ⟨rfl, rfl, rfl, rfl⟩
      | (rw [h]; exact ⟨rfl, rfl, rfl, rfl⟩)

theorem importLine_kept (cc : String) (st : ImportState) (line : String)
    (s e : Nat) (h : keptRange line = some (s, e)) :
    importLine cc st line =
      (if 1000 ≤ (mapPut st.batch (lineKey line) cc).length then
        flushBatch { st with
          processed := st.processed + 1,
          batch := mapPut st.batch (lineKey line) cc,
          numericBatch := st.numericBatch ++ [IPRange.mk s e cc] }
      else { st with
          processed := st.processed + 1,
          batch := mapPut st.batch (lineKey line) cc,
          numericBatch := st.numericBatch ++ [IPRange.mk s e cc] }) := by
  simp only [keptRange] at h
  simp only [importLine]
  simp only [lineKey] at h ⊢
  split_ifs at h ⊢ <;>
    first
      | exact absurd h (by simp)
      | (rw [h]; rfl)
      | (rw [h])
      | rfl

theorem importLine_processed (cc : String) (st : ImportState) (line : String) :
    (importLine cc st line).processed = st.processed + procDelta line := by
  simp only [importLine, procDelta, lineKey]
  split_ifs <;>
    first
      | rfl
      | (rcases parseIPRange ⟨trimSpace line.data⟩ with _ | ⟨s, e⟩ <;>
          simp [flushBatch])

theorem mapGet_mapPut_preserve (m : List (String × String)) (k t v : String)
    (h : mapGet m t = some v) : mapGet (mapPut m k v) t = some v := by
  by_cases ht : t = k
  · subst ht
    exact mapGet_mapPut_self m t v
  · rw [mapGet_mapPut_other m k v t ht]
    exact h

theorem batchInv_flushBatch (cc : String) (st : ImportState) :
    batchInv cc (flushBatch st) := by
  refine ⟨?_, ?_, ?_⟩ <;> simp [flushBatch]

theorem lineSettled_flushBatch (cc : String) (hcc : cc ≠ "") (st : ImportState)
    (hinv : batchInv cc st) (t : String) (s e : Nat)
    (hs : lineSettled cc st t s e) :
    lineSettled cc (flushBatch st) t s e := by
  obtain ⟨htext, hnum⟩ := hs
  constructor
  · left
    show mapGet (writeBatch st.db st.batch st.numericBatch).1.ip_ranges t = some cc
    apply foldl_writeBatchTextStep_cc cc hcc st.batch (st.db.ip_ranges, 0) t hinv.1
    rcases htext with h | h
    · exact Or.inl h
    · exact Or.inr (mapGet_some_mem_keys st.batch t cc h)
  · left
    show bucketGet (writeBatch st.db st.batch st.numericBatch).1.ip_ranges_numeric
      (encodeUint32BE s ++ encodeUint32BE e) = some cc
    apply foldl_writeBatchNumericStep_cc cc st.numericBatch st.db.ip_ranges_numeric
      _ hinv.2.1
    rcases hnum with h | h
    · exact Or.inl h
    · refine Or.inr ?_
      have : encodeUint32BE s ++ encodeUint32BE e = rangeKey (IPRange.mk s e cc) := rfl
      rw [this]
      exact List.mem_map_of_mem rangeKey h

theorem importLine_run1 (cc : String) (hcc : cc ≠ "") (st : ImportState)
    (line : String) (hinv : batchInv cc st) :
    batchInv cc (importLine cc st line) ∧
    (∀ t s e, lineSettled cc st t s e → lineSettled cc (importLine cc st line) t s e) ∧
    (∀ s e, keptRange line = some (s, e) →
      lineSettled cc (importLine cc st line) (lineKey line) s e) := by
  rcases hk : keptRange line with _ | ⟨s₀, e₀⟩
  · obtain ⟨hdb, hbatch, hnb, hupd⟩ := importLine_none_fields cc st line hk
    refine ⟨?_, ?_, ?_⟩
    · unfold batchInv at *
      rw [hbatch, hnb]
      exact hinv
    · intro t s e hs
      unfold lineSettled at *
      rw [hdb, hbatch, hnb]
      exact hs
    · intro s e habs
      exact absurd habs (by simp)
  · rw [importLine_kept cc st line s₀ e₀ hk]
    have hinv2 : batchInv cc
        { st with
            processed := st.processed + 1,
            batch := mapPut st.batch (lineKey line) cc,
            numericBatch := st.numericBatch ++ [IPRange.mk s₀ e₀ cc] } := by
      refine ⟨?_, ?_, ?_⟩
      · intro kv hkv
        rcases mem_mapPut st.batch (lineKey line) cc kv hkv with rfl | hm
        · rfl
        · exact hinv.1 kv hm
      · intro r hr
        rcases List.mem_append.mp hr with hm | hm
        · exact hinv.2.1 r hm
        · simp at hm
          rw [hm]
      · intro habs
        exact absurd habs (mapPut_ne_nil st.batch (lineKey line) cc)
    have hpres2 : ∀ t s e, lineSettled cc st t s e →
        lineSettled cc
          { st with
              processed := st.processed + 1,
              batch := mapPut st.batch (lineKey line) cc,
              numericBatch := st.numericBatch ++ [IPRange.mk s₀ e₀ cc] } t s e := by
      intro t s e hs
      obtain ⟨htext, hnum⟩ := hs
      constructor
      · rcases htext with h | h
        · exact Or.inl h
        · exact Or.inr (mapGet_mapPut_preserve st.batch (lineKey line) t cc h)
      · rcases hnum with h | h
        · exact Or.inl h
        · exact Or.inr (List.mem_append.mpr (Or.inl h))
    have hhead2 : lineSettled cc
        { st with
            processed := st.processed + 1,
            batch := mapPut st.batch (lineKey line) cc,
            numericBatch := st.numericBatch ++ [IPRange.mk s₀ e₀ cc] }
        (lineKey line) s₀ e₀ := by
      constructor
      · exact Or.inr (mapGet_mapPut_self st.batch (lineKey line) cc)
      · exact Or.inr (List.mem_append.mpr (Or.inr (by simp)))
    split_ifs with hflush
    · refine ⟨batchInv_flushBatch cc _, ?_, ?_⟩
      · intro t s e hs
        exact lineSettled_flushBatch cc hcc _ hinv2 t s e (hpres2 t s e hs)
      · intro s e hk2
        injection hk2 with hk2
        obtain ⟨rfl, rfl⟩ := Prod.mk.injEq .. ▸ hk2
        exact lineSettled_flushBatch cc hcc _ hinv2 _ _ _ hhead2
    · refine ⟨hinv2, hpres2, ?_⟩
      intro s e hk2
      injection hk2 with hk2
      obtain ⟨rfl, rfl⟩ := Prod.mk.injEq .. ▸ hk2
      exact hhead2

theorem run1_fold (cc : String) (hcc : cc ≠ "") :
    ∀ (lines : List String) (st : ImportState), batchInv cc st →
      batchInv cc (lines.foldl (importLine cc) st) ∧
      (∀ t s e, lineSettled cc st t s e →
        lineSettled cc (lines.foldl (importLine cc) st) t s e) ∧
      (∀ line ∈ lines, ∀ s e, keptRange line = some (s, e) →
        lineSettled cc (lines.foldl (importLine cc) st) (lineKey line) s e) := by
  intro lines
  induction lines with
  | nil =>
    intro st hinv
    exact ⟨hinv, fun t s e hs => hs, by simp⟩
  | cons line rest ih =>
    intro st hinv
    obtain ⟨h1, h2, h3⟩ := importLine_run1 cc hcc st line hinv
    obtain ⟨ih1, ih2, ih3⟩ := ih (importLine cc st line) h1
    rw [List.foldl_cons]
    refine ⟨ih1, ?_, ?_⟩
    · intro t s e hs
      exact ih2 t s e (h2 t s e hs)
    · intro l hl s e hk
      rcases List.mem_cons.mp hl with rfl | hm
      · exact ih2 _ s e (h3 s e hk)
      · exact ih3 l hm s e hk

theorem deriveCountryCode_ok_ne (file cc : String)
    (h : deriveCountryCode file = .ok cc) : cc ≠ "" := by
  intro hc
  subst hc
  simp only [deriveCountryCode] at h
  rcases hidx : indexOfChar (filepathBase file.data) '.' with _ | i
  · rw [hidx] at h
    exact absurd h (by simp)
  · rw [hidx] at h
    simp only at h
    split_ifs at h with he
    injection h with h2
    exact he h2

theorem importZoneFile_ok_decompose (db : LocalDB) (file : String)
    (lines : List String) (cc : String) (hcc : deriveCountryCode file = .ok cc) :
    importZoneFile db file lines =
      (let st := lines.foldl (importLine cc) ⟨db, [], [], 0, 0, 0⟩
       let st2 := if st.batch.length > 0 then flushBatch st else st
       GoResult.ok (st2.db, st2.processed, st2.updated)) := by
  unfold importZoneFile
  rw [hcc]

theorem flushBatch_processed (st : ImportState) :
    (flushBatch st).processed = st.processed := rfl

theorem foldl_importLine_processed (cc : String) :
    ∀ (lines : List String) (st : ImportState),
      (lines.foldl (importLine cc) st).processed =
        st.processed + (lines.map procDelta).sum := by
  intro lines
  induction lines with
  | nil =>
    intro st
    simp
  | cons line rest ih =>
    intro st
    rw [List.foldl_cons, ih (importLine cc st line), importLine_processed]
    simp [List.sum_cons]
    omega

/-- After a successful import, every kept line of the file is stored in
both indexes under the file's country code. -/
theorem import_ok_good (db : LocalDB) (file : String) (lines : List String)
    (cc : String) (db₁ : LocalDB) (p u : Nat)
    (hcc : deriveCountryCode file = .ok cc) (hne : cc ≠ "")
    (h : importZoneFile db file lines = .ok (db₁, p, u)) :
    ∀ line ∈ lines, ∀ s e, keptRange line = some (s, e) →
      mapGet db₁.ip_ranges (lineKey line) = some cc ∧
      bucketGet db₁.ip_ranges_numeric (encodeUint32BE s ++ encodeUint32BE e) =
        some cc := by
  rw [importZoneFile_ok_decompose db file lines cc hcc] at h
  simp only at h
  injection h with h
  have hdb : db₁ =
      (if (lines.foldl (importLine cc) ⟨db, [], [], 0, 0, 0⟩).batch.length > 0
        then flushBatch (lines.foldl (importLine cc) ⟨db, [], [], 0, 0, 0⟩)
        else lines.foldl (importLine cc) ⟨db, [], [], 0, 0, 0⟩).db := by
    have := congrArg Prod.fst h
    simpa using this.symm
  have hrun := run1_fold cc hne lines ⟨db, [], [], 0, 0, 0⟩
    ⟨by simp, by simp, by simp⟩
  intro line hl s e hk
  have hset := hrun.2.2 line hl s e hk
  have hinv := hrun.1
  by_cases hb :
      (lines.foldl (importLine cc) ⟨db, [], [], 0, 0, 0⟩).batch.length > 0
  · rw [if_pos hb] at hdb
    have hsf := lineSettled_flushBatch cc hne _ hinv _ _ _ hset
    obtain ⟨ht, hn⟩ := hsf
    constructor
    · rcases ht with ht | ht
      · rw [hdb]
        exact ht
      · have : (flushBatch (lines.foldl (importLine cc) ⟨db, [], [], 0, 0, 0⟩)).batch
            = [] := rfl
        rw [this] at ht
        exact absurd ht (by simp [mapGet])
    · rcases hn with hn | hn
      · rw [hdb]
        exact hn
      · have : (flushBatch
            (lines.foldl (importLine cc) ⟨db, [], [], 0, 0, 0⟩)).numericBatch
            = [] := rfl
        rw [this] at hn
        exact absurd hn (by simp)
  · rw [if_neg hb] at hdb
    have hbe : (lines.foldl (importLine cc) ⟨db, [], [], 0, 0, 0⟩).batch = [] := by
      rcases hx : (lines.foldl (importLine cc) ⟨db, [], [], 0, 0, 0⟩).batch with _ | c
      · rfl
      · rw [hx] at hb
        simp at hb
    have hnbe : (lines.foldl (importLine cc) ⟨db, [], [], 0, 0, 0⟩).numericBatch
        = [] := hinv.2.2 hbe
    obtain ⟨ht, hn⟩ := hset
    constructor
    · rcases ht with ht | ht
      · rw [hdb]
        exact ht
      · rw [hbe] at ht
        exact absurd ht (by simp [mapGet])
    · rcases hn with hn | hn
      · rw [hdb]
        exact hn
      · rw [hnbe] at hn
        exact absurd hn (by simp)

theorem writeBatch_run2_identity (cc : String) (db₁ : LocalDB) (st : ImportState)
    (hinv : run2Inv cc db₁ st) :
    writeBatch st.db st.batch st.numericBatch = (st.db, 0) := by
  obtain ⟨hdb, hupd, hb, hn⟩ := hinv
  apply writeBatch_identity
  · intro kv hkv
    obtain ⟨h1, h2⟩ := hb kv hkv
    rw [hdb, h2, h1]
    rfl
  · intro r hr
    obtain ⟨h1, h2⟩ := hn r hr
    rw [hdb, h2, h1]

theorem flushBatch_run2 (cc : String) (db₁ : LocalDB) (st : ImportState)
    (hinv : run2Inv cc db₁ st) : run2Inv cc db₁ (flushBatch st) := by
  have hid := writeBatch_run2_identity cc db₁ st hinv
  unfold run2Inv
  simp only [flushBatch, hid]
  exact ⟨hinv.1, by simp [hinv.2.1], by simp, by simp⟩

theorem importLine_run2 (cc : String) (db₁ : LocalDB) (st : ImportState)
    (line : String)
    (hgood : ∀ s e, keptRange line = some (s, e) →
      mapGet db₁.ip_ranges (lineKey line) = some cc ∧
      bucketGet db₁.ip_ranges_numeric (encodeUint32BE s ++ encodeUint32BE e) =
        some cc)
    (hinv : run2Inv cc db₁ st) : run2Inv cc db₁ (importLine cc st line) := by
  rcases hk : keptRange line with _ | ⟨s₀, e₀⟩
  · obtain ⟨hdb, hbatch, hnb, hupd⟩ := importLine_none_fields cc st line hk
    unfold run2Inv at *
    rw [hdb, hbatch, hnb, hupd]
    exact hinv
  · obtain ⟨hg1, hg2⟩ := hgood s₀ e₀ hk
    rw [importLine_kept cc st line s₀ e₀ hk]
    have hinv2 : run2Inv cc db₁
        { st with
            processed := st.processed + 1,
            batch := mapPut st.batch (lineKey line) cc,
            numericBatch := st.numericBatch ++ [IPRange.mk s₀ e₀ cc] } := by
      refine ⟨hinv.1, hinv.2.1, ?_, ?_⟩
      · intro kv hkv
        rcases mem_mapPut st.batch (lineKey line) cc kv hkv with rfl | hm
        · exact ⟨rfl, hg1⟩
        · exact hinv.2.2.1 kv hm
      · intro r hr
        rcases List.mem_append.mp hr with hm | hm
        · exact hinv.2.2.2 r hm
        · simp only [List.mem_singleton] at hm
          subst hm
          exact ⟨rfl, hg2⟩
    split_ifs with hflush
    · exact flushBatch_run2 cc db₁ _ hinv2
    · exact hinv2

theorem run2_fold (cc : String) (db₁ : LocalDB) :
    ∀ (lines : List String) (st : ImportState),
      (∀ line ∈ lines, ∀ s e, keptRange line = some (s, e) →
        mapGet db₁.ip_ranges (lineKey line) = some cc ∧
        bucketGet db₁.ip_ranges_numeric (encodeUint32BE s ++ encodeUint32BE e) =
          some cc) →
      run2Inv cc db₁ st → run2Inv cc db₁ (lines.foldl (importLine cc) st) := by
  intro lines
  induction lines with
  | nil =>
    intro st _ hinv
    exact hinv
  | cons line rest ih =>
    intro st hgood hinv
    rw [List.foldl_cons]
    exact ih (importLine cc st line)
      (fun l hl => hgood l (by simp [hl]))
      (importLine_run2 cc db₁ st line (hgood line (by simp)) hinv)

/-- C6: importing the same zone file a second time leaves every stored
country in both indexes equal to its value after the first import
(the database value is unchanged), reports the same processed count, and
returns `updatedCount = 0`: every textual entry is written (and counted)
only when the stored value differs, and every numeric entry only when
absent or different — after the first import nothing differs. -/
theorem importZoneFile_idempotent (db : LocalDB) (file : String)
    (lines : List String) (db₁ : LocalDB) (p u : Nat)
    (h : importZoneFile db file lines = .ok (db₁, p, u)) :
    importZoneFile db₁ file lines = .ok (db₁, p, 0) := by
  rcases hd : deriveCountryCode file with _ | m | cc
  · unfold importZoneFile at h
    rw [hd] at h
    exact absurd h (by simp)
  · unfold importZoneFile at h
    rw [hd] at h
    exact absurd h (by simp)
  · have hne : cc ≠ "" := deriveCountryCode_ok_ne file cc hd
    have hgood := import_ok_good db file lines cc db₁ p u hd hne h
    have hp : p = (lines.map procDelta).sum := by
      rw [importZoneFile_ok_decompose db file lines cc hd] at h
      simp only at h
      injection h with h
      have := congrArg (fun q => q.2.1) h
      simp only at this
      rw [← this]
      by_cases hb :
          (lines.foldl (importLine cc) ⟨db, [], [], 0, 0, 0⟩).batch.length > 0
      · rw [if_pos hb, flushBatch_processed,
          foldl_importLine_processed cc lines ⟨db, [], [], 0, 0, 0⟩]
        simp
      · rw [if_neg hb, foldl_importLine_processed cc lines ⟨db, [], [], 0, 0, 0⟩]
        simp
    have hrun2 := run2_fold cc db₁ lines ⟨db₁, [], [], 0, 0, 0⟩ hgood
      ⟨rfl, rfl, by simp, by simp⟩
    rw [importZoneFile_ok_decompose db₁ file lines cc hd]
    simp only
    by_cases hb :
        (lines.foldl (importLine cc) ⟨db₁, [], [], 0, 0, 0⟩).batch.length > 0
    · rw [if_pos hb]
      have hf := flushBatch_run2 cc db₁ _ hrun2
      rw [hf.1, hf.2.1, flushBatch_processed,
        foldl_importLine_processed cc lines ⟨db₁, [], [], 0, 0, 0⟩, ← hp]
      simp
    · rw [if_neg hb]
      rw [hrun2.1, hrun2.2.1,
        foldl_importLine_processed cc lines ⟨db₁, [], [], 0, 0, 0⟩, ← hp]
      simp

/-- Witness for C6: a two-line zone file imported twice; the second
run writes nothing and counts zero. -/
theorem importZoneFile_idempotent_witness :
    importZoneFile
      (⟨[("1.0.0.0-1.0.0.255", "FR"), ("2.0.0.0/24", "FR")],
        [(encodeUint32BE 16777216 ++ encodeUint32BE 16777471, "FR"),
         (encodeUint32BE 33554432 ++ encodeUint32BE 33554687, "FR")]⟩ : LocalDB)
      "FR.zone" ["1.0.0.0-1.0.0.255", "2.0.0.0/24"] =
      .ok (⟨[("1.0.0.0-1.0.0.255", "FR"), ("2.0.0.0/24", "FR")],
        [(encodeUint32BE 16777216 ++ encodeUint32BE 16777471, "FR"),
         (encodeUint32BE 33554432 ++ encodeUint32BE 33554687, "FR")]⟩, 2, 0) := by
  apply importZoneFile_idempotent ⟨[], []⟩ "FR.zone"
    ["1.0.0.0-1.0.0.255", "2.0.0.0/24"] _ 2 2
  rfl

end IpCountry

